import Mathlib

/-!
Verification of the metadata-attachment and license-generation pipeline of
`src/App.js` (Metadata and License Manager).

JavaScript strings are modelled as `List Char`; file bytes as `List Nat`.
External library behaviour (music-metadata-browser, pdf-lib) is abstracted
into an `Env` of parser/serializer functions.  `String.prototype.replace`
with a global literal pattern is modelled by `replaceAll`, which performs a
left-to-right non-overlapping scan; replacement strings are spliced
verbatim (JavaScript dollar-escape sequences in replacement strings are not
modelled, and theorems that depend on substitution only quantify over
replacement values without such sequences).
-/

set_option autoImplicit false
set_option maxRecDepth 100000

abbrev Str := List Char

def str (s : String) : Str := s.data

/-- The characters of `s` avoid the left-brace character. -/
def noLB (s : Str) : Prop := ∀ c ∈ s, c ≠ '{'

instance (s : Str) : Decidable (noLB s) := by
  unfold noLB; infer_instance

/-- Fuelled scanner for global literal replacement: at each position, if the
pattern is a prefix, emit the replacement and jump past the match, else emit
one character.  Fuel is an upper bound on the number of scan steps; each
step consumes at least one character, so `s.length` fuel always suffices. -/
def raFuel (pat rep : Str) : Nat → Str → Str
  | 0, s => s
  | _ + 1, [] => []
  | f + 1, c :: rest =>
    if pat ≠ [] ∧ pat.isPrefixOf (c :: rest) then
      rep ++ raFuel pat rep f (rest.drop (pat.length - 1))
    else
      c :: raFuel pat rep f rest

/-- Model of `s.replace(/pat/g, rep)` for a literal pattern `pat` and a
replacement string spliced verbatim.  JavaScript additionally expands
dollar-escape sequences in the replacement (`$$`, `$&`, the backtick and
quote forms); these are NOT modelled, so the model agrees with JavaScript
exactly when the replacement contains no dollar character.  Theorems that
quantify over replacement values therefore carry a no-dollar hypothesis
(`valSafe`, `lineSafe`); theorems at concrete inputs use dollar-free
strings. -/
def replaceAll (s pat rep : Str) : Str := raFuel pat rep s.length s

/-! ### Splitting, joining and trimming (models of `split`, `join`, `trim`) -/

/-- Model of JavaScript `s.split(sep)` for a single-character separator. -/
def splitOnChar (sep : Char) : Str → List Str
  | [] => [[]]
  | x :: rest =>
    match splitOnChar sep rest with
    | [] => [[]]
    | h :: t => if x = sep then [] :: h :: t else (x :: h) :: t

/-- Model of JavaScript `parts.join(sep)` for a list of parts. -/
def joinSep (sep : Str) : List Str → Str
  | [] => []
  | [x] => x
  | x :: y :: rest => x ++ sep ++ joinSep sep (y :: rest)

/-- Whitespace recognised by the `trim` model (the characters relevant to
the templates in this program). -/
def isWS (c : Char) : Bool := c = ' ' || c = '\t' || c = '\n' || c = '\r'

/-- Model of JavaScript `line.trim()`. -/
def trimStr (s : Str) : Str :=
  ((s.dropWhile isWS).reverse.dropWhile isWS).reverse

/-- Model of lines 172-173: split on newlines, trim every line, re-join. -/
def normalizeLines (s : Str) : Str :=
  joinSep (str "\n") ((splitOnChar '\n' s).map trimStr)

/-! ### Markup stripping (model of the `<p>`-tag removal, lines 157-160) -/

/-- Text content extraction: drops every `<...>` tag span.  This models the
`document.createElement` / `textContent` idiom of the source for templates
without character entities (the templates this program produces contain
none). -/
def stripTagsAux : Bool → Str → Str
  | _, [] => []
  | false, '<' :: r => stripTagsAux true r
  | false, c :: r => c :: stripTagsAux false r
  | true, '>' :: r => stripTagsAux false r
  | true, _ :: r => stripTagsAux true r

/-- Lines 157-160: replace `<p>` with the empty string and `</p>` with a
newline, then take the text content of the resulting markup. -/
def htmlToText (tpl : Str) : Str :=
  stripTagsAux false
    (replaceAll (replaceAll tpl (str "<p>") []) (str "</p>") (str "\n"))

/-! ### Dates (model of `formatDate`, lines 135-147) -/

/-- A calendar date as observed through `getFullYear` /
`toLocaleDateString`; `month` is the human 1-12 month. -/
structure JSDate where
  year : Nat
  month : Nat
  day : Nat
deriving DecidableEq

def digitChar (n : Nat) : Char :=
  match n % 10 with
  | 0 => '0'
  | 1 => '1'
  | 2 => '2'
  | 3 => '3'
  | 4 => '4'
  | 5 => '5'
  | 6 => '6'
  | 7 => '7'
  | 8 => '8'
  | _ => '9'

/-- Decimal rendering of a natural number (model of `Number.toString` and
of the digit fields of locale date strings). -/
def natToCharsFuel : Nat → Nat → Str
  | 0, n => [digitChar n]
  | f + 1, n => if n < 10 then [digitChar n] else natToCharsFuel f (n / 10) ++ [digitChar (n % 10)]

def natToChars (n : Nat) : Str := natToCharsFuel n n

/-- Two-digit zero padding used by the `en-GB` and `en-CA` numeric date
renderings (ICU `dd`/`MM` fields). -/
def pad2 (n : Nat) : Str := if n < 10 then '0' :: natToChars n else natToChars n

/-- `date.toLocaleDateString("en-CA", numeric)`: ICU renders `y-MM-dd`,
e.g. `2024-03-05`. -/
def enCA (d : JSDate) : Str :=
  natToChars d.year ++ '-' :: (pad2 d.month ++ '-' :: pad2 d.day)

/-- `date.toLocaleDateString("en-GB", numeric)`: ICU renders `dd/MM/y`,
e.g. `05/03/2024`. -/
def enGB (d : JSDate) : Str :=
  pad2 d.day ++ '/' :: (pad2 d.month ++ '/' :: natToChars d.year)

/-- `date.toLocaleDateString()` with no locale argument, modelled as the
`en-US` numeric rendering `M/d/y` (the host default in the environments
this program targets). -/
def localeDefault (d : JSDate) : Str :=
  natToChars d.month ++ '/' :: (natToChars d.day ++ '/' :: natToChars d.year)

/-! Regex rewrites of the locale strings.  `replace` with a non-global
regex replaces only the leftmost match; `\d{1,2}` is greedy with
backtracking, `\d{4}` is exactly four digits. -/

def isDigit (c : Char) : Bool := '0' ≤ c && c ≤ '9'

/-- Take exactly `n` digit characters. -/
def takeDigits : Nat → Str → Option (Str × Str)
  | 0, s => some ([], s)
  | _ + 1, [] => none
  | n + 1, c :: r =>
    if isDigit c then
      match takeDigits n r with
      | some (g, rest) => some (c :: g, rest)
      | none => none
    else none

def matchSlash : Str → Option Str
  | '/' :: r => some r
  | _ => none

/-- Attempt `(\d{n1})\/(\d{4})` at the current position for a fixed first
group width. -/
def tryMYWidth (n1 : Nat) (s : Str) : Option (Str × Str × Str) :=
  match takeDigits n1 s with
  | some (g1, r1) =>
    match matchSlash r1 with
    | some r2 =>
      match takeDigits 4 r2 with
      | some (g2, r3) => some (g1, g2, r3)
      | none => none
    | none => none
  | none => none

/-- Attempt `(\d{1,2})\/(\d{4})` at the current position (group 1 greedy:
two digits first, then one). -/
def tryMYAt (s : Str) : Option (Str × Str × Str) :=
  match tryMYWidth 2 s with
  | some x => some x
  | none => tryMYWidth 1 s

/-- Line 141: `.replace(/(\d{1,2})\/(\d{4})/, "$2-$1")` (first match only). -/
def regexReplMY : Str → Str
  | [] => []
  | c :: rest =>
    match tryMYAt (c :: rest) with
    | some (g1, g2, r) => g2 ++ '-' :: (g1 ++ r)
    | none => c :: regexReplMY rest

/-- Continue a `(\d{1,2})\/(\d{1,2})\/(\d{4})` match after the first group
and slash, with a fixed second group width. -/
def tryDMYTail (g1 r1 : Str) (n2 : Nat) : Option (Str × Str × Str × Str) :=
  match takeDigits n2 r1 with
  | some (g2, r2) =>
    match matchSlash r2 with
    | some r3 =>
      match takeDigits 4 r3 with
      | some (g3, r4) => some (g1, g2, g3, r4)
      | none => none
    | none => none
  | none => none

/-- Attempt the full pattern with a fixed first group width, greedy on the
second group. -/
def tryDMYFrom (n1 : Nat) (s : Str) : Option (Str × Str × Str × Str) :=
  match takeDigits n1 s with
  | some (g1, r1) =>
    match matchSlash r1 with
    | some r2 =>
      match tryDMYTail g1 r2 2 with
      | some x => some x
      | none => tryDMYTail g1 r2 1
    | none => none
  | none => none

/-- Attempt `(\d{1,2})\/(\d{1,2})\/(\d{4})` at the current position, with
greedy backtracking on both `\d{1,2}` groups. -/
def tryDMYAt (s : Str) : Option (Str × Str × Str × Str) :=
  match tryDMYFrom 2 s with
  | some x => some x
  | none => tryDMYFrom 1 s

/-- Line 143: `.replace(/(\d{1,2})\/(\d{1,2})\/(\d{4})/, "$1-$2-$3")`. -/
def regexReplDMY : Str → Str
  | [] => []
  | c :: rest =>
    match tryDMYAt (c :: rest) with
    | some (g1, g2, g3, r) => g1 ++ '-' :: (g2 ++ '-' :: (g3 ++ r))
    | none => c :: regexReplDMY rest

/-- Model of `formatDate` (lines 135-147): a `switch` on the `dateFormat`
string, delegating to the locale renderings and regex rewrites above. -/
def formatDate (date : JSDate) (format : Option Str) : Str :=
  if format = some (str "yyyy-m-d") then enCA date
  else if format = some (str "m-yyyy-d") then regexReplMY (enGB date)
  else if format = some (str "d-m-yyyy") then regexReplDMY (enGB date)
  else localeDefault date

/-! ### Placeholder tokens and the sequential substitution (lines 162-170) -/

/-- The seven placeholder tokens of the template vocabulary, in the order
the source substitutes them. -/
inductive Token
  | filename
  | downloadDate
  | year
  | institution
  | website
  | contact
  | authorsList
deriving DecidableEq, Fintype

def tokenPat : Token → Str
  | .filename => str "{filename}"
  | .downloadDate => str "{downloadDate}"
  | .year => str "{year}"
  | .institution => str "{institution}"
  | .website => str "{website}"
  | .contact => str "{contact}"
  | .authorsList => str "{authorsList}"

/-- The order of the chained `.replace` calls in the source. -/
def tokenOrder : List Token :=
  [.filename, .downloadDate, .year, .institution, .website, .contact, .authorsList]

/-- Apply the global replacement for each token of `ts` in order. -/
def substTokens (vals : Token → Str) : List Token → Str → Str
  | [], s => s
  | t :: ts, s => substTokens vals ts (replaceAll s (tokenPat t) (vals t))

/-- A template decomposed into literal chunks and placeholder occurrences. -/
inductive Seg
  | lit (s : Str)
  | hole (t : Token)
deriving DecidableEq

/-- Render a segment list; holes whose token is in `done` carry their
substituted value, the others still carry the literal placeholder text. -/
def renderSegs (done : Token → Bool) (vals : Token → Str) : List Seg → Str
  | [] => []
  | Seg.lit s :: rest => s ++ renderSegs done vals rest
  | Seg.hole t :: rest =>
    (cond (done t) (vals t) (tokenPat t)) ++ renderSegs done vals rest

def segLitNoLB : Seg → Bool
  | Seg.lit s => s.all (fun c => c ≠ '{')
  | Seg.hole _ => true

/-- Output with no left brace contains no placeholder occurrence. -/
def noResidual (s : Str) : Prop := ∀ t : Token, ¬ (tokenPat t <:+: s)

/-! ### Data model: default metadata (lines 9-16) and merged metadata -/

def sourceDefault : Str := str "Your Website Name"
def institutionDefault : Str := str "Your Institution Name"
def websiteDefault : Str := str "Your Website URL"
def contactDefault : Str := str "Your Contact Info"

/-- A metadata object as the pipeline functions read it.  Fields the
default metadata always supplies are plain strings (the empty string also
standing for the falsy empty JavaScript string); fields that may be absent
(`undefined`) are `Option`s. -/
structure Metadata where
  title : Option Str
  authors : List Str
  institution : Str
  website : Str
  contact : Str
  source : Str
  dateFormat : Option Str
  licenseTemplate : Option Str

/-- The caller-supplied `customMetadata` object: any subset of keys may be
present. -/
structure CustomMetadata where
  title : Option Str
  authors : Option (List Str)
  institution : Option Str
  website : Option Str
  contact : Option Str
  source : Option Str
  dateFormat : Option Str
  licenseTemplate : Option Str

/-- Line 112: `{ ...config.defaultMetadata, ...customMetadata }`. -/
def mergeMetadata (c : CustomMetadata) : Metadata where
  title := c.title
  authors := c.authors.getD []
  institution := c.institution.getD institutionDefault
  website := c.website.getD websiteDefault
  contact := c.contact.getD contactDefault
  source := c.source.getD sourceDefault
  dateFormat := c.dateFormat
  licenseTemplate := c.licenseTemplate

/-- A custom-metadata object read directly (no defaults merged in), as in
`downloadFile` line 256; absent string fields behave like the empty string
under the `||` fallbacks. -/
def rawMetadata (c : CustomMetadata) : Metadata where
  title := c.title
  authors := c.authors.getD []
  institution := c.institution.getD []
  website := c.website.getD []
  contact := c.contact.getD []
  source := c.source.getD []
  dateFormat := c.dateFormat
  licenseTemplate := c.licenseTemplate

/-- JavaScript `v || d` on strings: the empty string is falsy. -/
def resolveField (v d : Str) : Str := if v = [] then d else v

/-- Lines 153-155: comma-join the authors, or the literal `N/A`. -/
def authorsListVal (m : Metadata) : Str :=
  if m.authors.length > 0 then joinSep (str ", ") m.authors else str "N/A"

/-- The resolved substitution value of each token (lines 163-170). -/
def tokenVals (filename : Str) (m : Metadata) (now : JSDate) : Token → Str
  | .filename => filename
  | .downloadDate => formatDate now m.dateFormat
  | .year => natToChars now.year
  | .institution => resolveField m.institution institutionDefault
  | .website => resolveField m.website websiteDefault
  | .contact => resolveField m.contact contactDefault
  | .authorsList => authorsListVal m

/-- Model of `generateLicenseContent` (lines 149-174).  The wall clock read
by `new Date()` is passed in as `now`.  Reading `.replace` off an absent
`licenseTemplate` throws a `TypeError`, modelled as the `Except.error`
branch; every other step is total. -/
def generateLicenseContent (filename : Str) (m : Metadata) (now : JSDate) :
    Except Str Str :=
  match m.licenseTemplate with
  | none => Except.error (str "TypeError: cannot read replace of undefined")
  | some tpl =>
    let plainTextTemplate := htmlToText tpl
    let substituted :=
      replaceAll (replaceAll (replaceAll (replaceAll (replaceAll (replaceAll (replaceAll
        plainTextTemplate
        (tokenPat .filename) (tokenVals filename m now .filename))
        (tokenPat .downloadDate) (tokenVals filename m now .downloadDate))
        (tokenPat .year) (tokenVals filename m now .year))
        (tokenPat .institution) (tokenVals filename m now .institution))
        (tokenPat .website) (tokenVals filename m now .website))
        (tokenPat .contact) (tokenVals filename m now .contact))
        (tokenPat .authorsList) (tokenVals filename m now .authorsList)
    Except.ok (normalizeLines substituted)

/-! ### Files, blobs and the external-library environment -/

/-- A `File` as the pipeline reads it: name, raw bytes, MIME type. -/
structure FileInput where
  name : Str
  bytes : List Nat
  type : Str
deriving DecidableEq

/-- A `Blob`: byte content plus MIME type. -/
structure Blob where
  bytes : List Nat
  type : Str
deriving DecidableEq

def fileBlob (f : FileInput) : Blob := { bytes := f.bytes, type := f.type }

/-- The `common` tag block returned by `music-metadata-browser`. -/
structure AudioCommon where
  title : Option Str
  artist : Option Str
  album : Option Str
deriving DecidableEq

structure AudioParseResult where
  common : AudioCommon
deriving DecidableEq

/-- A `pdf-lib` document: settable properties plus opaque content. -/
structure PDFDoc where
  title : Option Str
  author : Option Str
  subject : Option Str
  content : List Nat
deriving DecidableEq

/-- Behaviour of the external libraries: `parseBuffer` of
`music-metadata-browser` (which rejects on malformed containers),
`PDFDocument.load` and `.save()` of `pdf-lib`. -/
structure Env where
  parseBuffer : List Nat → Str → Except Str AudioParseResult
  pdfLoad : List Nat → Except Str PDFDoc
  pdfSave : PDFDoc → List Nat

/-- JavaScript `a || b` on strings. -/
def jsOrStr (a b : Str) : Str := if a = [] then b else a

/-- `metadata.title || "Default Title"` where `title` may be `undefined`. -/
def titleVal (t : Option Str) : Str := jsOrStr (t.getD []) (str "Default Title")

/-- Model of `attachAudioMetadata` (lines 82-97): parse the container,
overwrite the tag fields on the parsed in-memory object, and return a new
`Blob` built from the original `file` with the file's type.  The mutated
parse result is local to the function and is not serialized back; the
returned blob wraps the original bytes.  A parse failure is re-thrown. -/
def attachAudioMetadata (env : Env) (file : FileInput) (metadata : Metadata) :
    Except Str Blob :=
  match env.parseBuffer file.bytes file.type with
  | Except.error e => Except.error e
  | Except.ok parsed =>
    let _mutated : AudioParseResult :=
      { parsed with
          common :=
            { title := some (titleVal metadata.title)
              artist := some (jsOrStr (joinSep (str ", ") metadata.authors)
                (joinSep (str ", ") []))
              album := some (jsOrStr metadata.source sourceDefault) } }
    Except.ok { bytes := file.bytes, type := file.type }

/-- Model of `attachPDFMetadata` (lines 99-109): load the document, set
title/author/subject, save, and wrap the saved bytes in a PDF blob. -/
def attachPDFMetadata (env : Env) (file : FileInput) (metadata : Metadata) :
    Except Str Blob :=
  match env.pdfLoad file.bytes with
  | Except.error e => Except.error e
  | Except.ok doc =>
    let doc' : PDFDoc :=
      { doc with
          title := some (titleVal metadata.title)
          author := some (jsOrStr (joinSep (str ", ") metadata.authors)
            (joinSep (str ", ") []))
          subject := some (jsOrStr metadata.source sourceDefault) }
    Except.ok { bytes := env.pdfSave doc', type := str "application/pdf" }

/-! ### Type resolver (lines 17-30 and 113-114) -/

inductive HandlerKind
  | audio
  | pdf
deriving DecidableEq

structure TypeDescriptor where
  mimeType : Str
  handler : Option HandlerKind
deriving DecidableEq

/-- The static `config.supportedTypes` table. -/
def supportedTypes : List (Str × TypeDescriptor) :=
  [ (str "wav", { mimeType := str "audio/wav", handler := some HandlerKind.audio })
  , (str "mp3", { mimeType := str "audio/mpeg", handler := some HandlerKind.audio })
  , (str "ogg", { mimeType := str "audio/ogg", handler := some HandlerKind.audio })
  , (str "flac", { mimeType := str "audio/flac", handler := some HandlerKind.audio })
  , (str "mp4", { mimeType := str "video/mp4", handler := none })
  , (str "webm", { mimeType := str "video/webm", handler := none })
  , (str "jpg", { mimeType := str "image/jpeg", handler := none })
  , (str "jpeg", { mimeType := str "image/jpeg", handler := none })
  , (str "png", { mimeType := str "image/png", handler := none })
  , (str "gif", { mimeType := str "image/gif", handler := none })
  , (str "webp", { mimeType := str "image/webp", handler := none })
  , (str "pdf", { mimeType := str "application/pdf", handler := some HandlerKind.pdf })
  ]

/-- `config.supportedTypes[ext]`; the `|| config.supportedTypes.default`
fallback reads an absent key and stays `undefined`. -/
def lookupType (ext : Str) : Option TypeDescriptor := supportedTypes.lookup ext

/-- The last part produced by `split`. -/
def lastSeg : List Str → Str
  | [] => []
  | [x] => x
  | _ :: y :: rest => lastSeg (y :: rest)

/-- Line 113: `file.name.split(".").pop().toLowerCase()`. -/
def extOf (name : Str) : Str :=
  (lastSeg (splitOnChar '.' name)).map Char.toLower

def runHandler (env : Env) : HandlerKind → FileInput → Metadata → Except Str Blob
  | HandlerKind.audio => attachAudioMetadata env
  | HandlerKind.pdf => attachPDFMetadata env

/-- The pair returned by `attachMetadataToDownload`; the license blob is
carried as its text. -/
structure DownloadArtifacts where
  processedFile : Blob
  licenseText : Str
deriving DecidableEq

/-- Model of `attachMetadataToDownload` (lines 111-133): merge the custom
metadata over the defaults, resolve the extension, run the handler if one
exists (else pass the file through), and generate the license; any failure
inside the `try` block falls back to the original file, re-running license
generation in the `catch` block. -/
def attachMetadataToDownload (env : Env) (file : FileInput)
    (customMetadata : CustomMetadata) (now : JSDate) :
    Except Str DownloadArtifacts :=
  let metadata := mergeMetadata customMetadata
  let fileExtension := extOf file.name
  let handler := lookupType fileExtension
  let tryBody : Except Str DownloadArtifacts :=
    match
      (match handler with
       | some d =>
         match d.handler with
         | some hk => runHandler env hk file metadata
         | none => Except.ok (fileBlob file)
       | none => Except.ok (fileBlob file)) with
    | Except.error e => Except.error e
    | Except.ok processedFile =>
      match generateLicenseContent file.name metadata now with
      | Except.error e => Except.error e
      | Except.ok licenseContent =>
        Except.ok { processedFile := processedFile, licenseText := licenseContent }
  match tryBody with
  | Except.ok result => Except.ok result
  | Except.error _ =>
    match generateLicenseContent file.name metadata now with
    | Except.error e => Except.error e
    | Except.ok licenseContent =>
      Except.ok { processedFile := fileBlob file, licenseText := licenseContent }

/-! ### Packaging (`downloadFile`, lines 248-268) -/

/-- A list item as stored by `handleFileUpload`: display name plus the
underlying `File`. -/
structure FileItem where
  name : Str
  file : FileInput
deriving DecidableEq

inductive ZipEntry
  | fileEntry (b : Blob)
  | textEntry (s : Str)
deriving DecidableEq

/-- The archive and suggested download name produced by `downloadFile`. -/
structure ZipResult where
  entries : List (Str × ZipEntry)
  downloadName : Str
deriving DecidableEq

/-- Model of `downloadFile` (lines 248-268): attach metadata, build a zip
with the processed file under the original name, generate the license again
(line 256, from the raw profile object) and store it under
`name + ".license.txt"`, and suggest `name + ".zip"` as the download name.
The surrounding `try`/`catch` swallows errors without producing a
download, modelled by the `Except.error` branch. -/
def downloadFile (env : Env) (item : FileItem) (metadata : CustomMetadata)
    (now : JSDate) : Except Str ZipResult :=
  match attachMetadataToDownload env item.file metadata now with
  | Except.error e => Except.error e
  | Except.ok artifacts =>
    match generateLicenseContent item.name (rawMetadata metadata) now with
    | Except.error e => Except.error e
    | Except.ok licenseContent =>
      Except.ok
        { entries :=
            [ (item.name, ZipEntry.fileEntry artifacts.processedFile)
            , (item.name ++ str ".license.txt", ZipEntry.textEntry licenseContent) ]
          downloadName := item.name ++ str ".zip" }

/-! ### The default license template (`config.licenseTextTemplate`, lines 31-53) -/

def defaultLicenseTemplate : Str :=
  str "License Agreement\n\nFile: {filename}\nDownload Date: {downloadDate}\n\n© {year} {institution}\n\nAuthors:\n{authorsList}\n\nLicense:\n\nThis file is licensed under the {institution} Copyright License. Downloading the file constitutes agreement to the following terms:\n\n* Personal Use Only: You may download and use this file for personal, non-commercial purposes.\n* No Redistribution or Modification: You may not share, distribute, or modify this file without explicit written permission from {institution}.\n* Copyright Protection: This file is protected by copyright law. Unauthorized use or reproduction is prohibited.\n\nFor More Information:\n\n* Website: {website}\n* Contact: {contact}\n"

/-- The default template, cut into literal chunks and placeholder holes. -/
def defaultTemplateSegs : List Seg :=
  [ Seg.lit (str "License Agreement\n\nFile: ")
  , Seg.hole Token.filename
  , Seg.lit (str "\nDownload Date: ")
  , Seg.hole Token.downloadDate
  , Seg.lit (str "\n\n© ")
  , Seg.hole Token.year
  , Seg.lit (str " ")
  , Seg.hole Token.institution
  , Seg.lit (str "\n\nAuthors:\n")
  , Seg.hole Token.authorsList
  , Seg.lit (str "\n\nLicense:\n\nThis file is licensed under the ")
  , Seg.hole Token.institution
  , Seg.lit (str " Copyright License. Downloading the file constitutes agreement to the following terms:\n\n* Personal Use Only: You may download and use this file for personal, non-commercial purposes.\n* No Redistribution or Modification: You may not share, distribute, or modify this file without explicit written permission from ")
  , Seg.hole Token.institution
  , Seg.lit (str ".\n* Copyright Protection: This file is protected by copyright law. Unauthorized use or reproduction is prohibited.\n\nFor More Information:\n\n* Website: ")
  , Seg.hole Token.website
  , Seg.lit (str "\n* Contact: ")
  , Seg.hole Token.contact
  , Seg.lit (str "\n")
  ]

/-! ### Helpers and concrete inputs used by the claim theorems -/

/-- The payload of a successful render (the empty string on error). -/
def getOk (e : Except Str Str) : Str :=
  match e with
  | Except.ok s => s
  | Except.error _ => []

def exceptIsOk (e : Except Str Str) : Bool :=
  match e with
  | Except.ok _ => true
  | Except.error _ => false

/-- No nonempty suffix of `x` is prefix-compatible with `pat`: the scan can
find no occurrence starting inside `x`. -/
def cantMatch (pat x : Str) : Prop :=
  ∀ xd ∈ x.tails, xd ≠ [] → ¬ pat <+: xd ∧ ¬ xd <+: pat

instance (pat x : Str) : Decidable (cantMatch pat x) := by
  unfold cantMatch; infer_instance

def emptyCustom : CustomMetadata where
  title := none
  authors := none
  institution := none
  website := none
  contact := none
  source := none
  dateFormat := none
  licenseTemplate := none

/-- An environment whose parsers reject every input. -/
def failEnv : Env where
  parseBuffer := fun _ _ => Except.error (str "parse failure")
  pdfLoad := fun _ => Except.error (str "load failure")
  pdfSave := fun _ => []

/-- An environment whose audio parser accepts every input and reports the
tags already stored in the container. -/
def oldTagEnv : Env where
  parseBuffer := fun _ _ => Except.ok
    { common :=
        { title := some (str "Old Title")
          artist := some (str "Old Artist")
          album := some (str "Old Album") } }
  pdfLoad := fun _ => Except.error (str "load failure")
  pdfSave := fun _ => []

/-- An environment whose PDF serializer produces bytes different from its
input (as re-serialization generally does). -/
def pdfEnv : Env where
  parseBuffer := fun _ _ => Except.error (str "parse failure")
  pdfLoad := fun b => Except.ok { title := none, author := none, subject := none, content := b }
  pdfSave := fun _ => [9, 9, 9]

def trackFile : FileInput where
  name := str "track.mp3"
  bytes := [1, 2, 3]
  type := str "audio/mpeg"

def heicFile : FileInput where
  name := str "photo.heic"
  bytes := [7, 8]
  type := str "image/heic"

/-- A file whose name has no dot at all, but whose whole name is a table
key. -/
def pdfNameFile : FileInput where
  name := str "pdf"
  bytes := [1, 2, 3]
  type := str ""

def heicItem : FileItem where
  name := str "photo.heic"
  file := heicFile

/-- Custom metadata carrying only a one-character license template. -/
def plainCustom : CustomMetadata := { emptyCustom with licenseTemplate := some (str "T") }

/-- Custom metadata whose template is a bare `filename` placeholder. -/
def chainCustom : CustomMetadata :=
  { emptyCustom with
      dateFormat := some (str "yyyy-m-d")
      licenseTemplate := some (str "{filename}") }

/-- Custom metadata selecting the `d-m-yyyy` date format over the default
template. -/
def dmyCustom : CustomMetadata :=
  { emptyCustom with
      dateFormat := some (str "d-m-yyyy")
      licenseTemplate := some defaultLicenseTemplate }

/-- Custom metadata with authors and institution, over the default
template. -/
def fullCustom : CustomMetadata :=
  { emptyCustom with
      authors := some [str "Ada Lovelace"]
      institution := some (str "Acme Labs")
      licenseTemplate := some defaultLicenseTemplate }

/-- Custom metadata with empty authors over the default template. -/
def noAuthorsCustom : CustomMetadata :=
  { emptyCustom with
      institution := some (str "Acme Labs")
      licenseTemplate := some defaultLicenseTemplate }

/-- JS-safe substitution values: no left brace (cannot re-create
placeholder text, see the C4 theorems) and no dollar character (no
JavaScript `$`-escape sequences, which `replaceAll` does not model). -/
def valSafe (s : Str) : Prop := ∀ c ∈ s, c ≠ '{' ∧ c ≠ '$'

instance (s : Str) : Decidable (valSafe s) := by
  unfold valSafe; infer_instance

/-- A substitution value that is rendered verbatim by JavaScript `replace`
(no dollar character) and survives line normalization intact: nonempty,
newline-free, with non-whitespace first and last characters (the spec's
input boundary requires authors to arrive as trimmed strings). -/
def lineSafe (x : Str) : Prop :=
  x ≠ [] ∧ '\n' ∉ x ∧ '$' ∉ x ∧
    isWS (x.headD 'A') = false ∧ isWS (x.reverse.headD 'A') = false

instance (x : Str) : Decidable (lineSafe x) := by
  unfold lineSafe; infer_instance

/-- The six tokens the source substitutes before `authorsList`. -/
def frontTokens : List Token :=
  [ Token.filename, Token.downloadDate, Token.year, Token.institution
  , Token.website, Token.contact ]

/-- Custom metadata whose contact value is the literal text of the
institution placeholder, over the default template. -/
def residualCustom : CustomMetadata :=
  { emptyCustom with
      contact := some (str "{institution}")
      licenseTemplate := some defaultLicenseTemplate }

/-! ### Theorems -/

theorem raFuel_nil (pat rep : Str) : ∀ f, raFuel pat rep f [] = [] := by
  intro f; cases f <;> rfl

theorem raFuel_fuel (pat rep : Str) :
    ∀ f g s, s.length ≤ f → s.length ≤ g →
      raFuel pat rep f s = raFuel pat rep g s := by
  intro f
  induction f with
  | zero =>
    intro g s hf _
    have : s = [] := List.length_eq_zero.mp (Nat.le_zero.mp hf)
    subst this
    rw [raFuel_nil, raFuel_nil]
  | succ f ih =>
    intro g s hf hg
    cases s with
    | nil => rw [raFuel_nil, raFuel_nil]
    | cons c rest =>
      cases g with
      | zero => exact absurd hg (by simp)
      | succ g =>
        show raFuel pat rep (f + 1) (c :: rest) = raFuel pat rep (g + 1) (c :: rest)
        unfold raFuel
        by_cases h : pat ≠ [] ∧ pat.isPrefixOf (c :: rest)
        · rw [if_pos h, if_pos h]
          congr 1
          apply ih
          · calc (rest.drop (pat.length - 1)).length ≤ rest.length :=
                  by rw [List.length_drop]; omega
              _ ≤ f := by simpa using hf
          · calc (rest.drop (pat.length - 1)).length ≤ rest.length :=
                  by rw [List.length_drop]; omega
              _ ≤ g := by simpa using hg
        · rw [if_neg h, if_neg h]
          congr 1
          apply ih
          · simpa using hf
          · simpa using hg

theorem replaceAll_nil (pat rep : Str) : replaceAll [] pat rep = [] := rfl

theorem raFuel_cons (pat rep : Str) (f : Nat) (c : Char) (rest : Str) :
    raFuel pat rep (f + 1) (c :: rest) =
      if pat ≠ [] ∧ pat.isPrefixOf (c :: rest) then
        rep ++ raFuel pat rep f (rest.drop (pat.length - 1))
      else
        c :: raFuel pat rep f rest := rfl

theorem isPrefixOfIff : ∀ (p s : Str), p.isPrefixOf s = true ↔ p <+: s := by
  intro p
  induction p with
  | nil =>
    intro s
    simp [List.isPrefixOf]
  | cons a p ih =>
    intro s
    cases s with
    | nil => simp [List.isPrefixOf]
    | cons b s =>
      simp only [List.isPrefixOf, Bool.and_eq_true, beq_iff_eq, List.cons_prefix_cons]
      exact and_congr Iff.rfl (ih s)

/-- A prefix of `xd ++ s` is either a prefix of `xd`, or extends all of `xd`. -/
theorem prefixSplitAppend : ∀ (pat xd s : Str), pat <+: xd ++ s → pat <+: xd ∨ xd <+: pat := by
  intro pat
  induction pat with
  | nil => intro xd s _; exact Or.inl ⟨xd, rfl⟩
  | cons b p ih =>
    intro xd s h
    cases xd with
    | nil => exact Or.inr ⟨b :: p, rfl⟩
    | cons a xd =>
      rw [List.cons_append, List.cons_prefix_cons] at h
      rcases h with ⟨rfl, h⟩
      rcases ih xd s h with h' | h'
      · exact Or.inl (List.cons_prefix_cons.mpr ⟨rfl, h'⟩)
      · exact Or.inr (List.cons_prefix_cons.mpr ⟨rfl, h'⟩)

theorem replaceAll_cons_no (pat rep : Str) (c : Char) (s : Str)
    (h : ¬ (pat ≠ [] ∧ pat.isPrefixOf (c :: s))) :
    replaceAll (c :: s) pat rep = c :: replaceAll s pat rep := by
  show raFuel pat rep (s.length + 1) (c :: s) = c :: raFuel pat rep s.length s
  rw [raFuel_cons, if_neg h]

theorem isPrefixOf_append_self : ∀ (p s : Str), p.isPrefixOf (p ++ s) = true := by
  intro p s
  exact (isPrefixOfIff p (p ++ s)).mpr ⟨s, rfl⟩

theorem replaceAll_cons_match (pat rep s : Str) (h : pat ≠ []) :
    replaceAll (pat ++ s) pat rep = rep ++ replaceAll s pat rep := by
  cases pat with
  | nil => exact absurd rfl h
  | cons c p =>
    show raFuel (c :: p) rep ((c :: p ++ s).length) (c :: (p ++ s)) = _
    have hlen : (c :: p ++ s).length = (p ++ s).length + 1 := by simp
    rw [hlen, raFuel_cons, if_pos ⟨h, isPrefixOf_append_self (c :: p) s⟩]
    have hdrop : (p ++ s).drop ((c :: p).length - 1) = s := by
      show (p ++ s).drop p.length = s
      exact List.drop_left p s
    rw [hdrop]
    congr 1
    apply raFuel_fuel
    · simp
    · exact Nat.le_refl _

/-- If no nonempty suffix of `x` can begin an occurrence of `pat` (neither
having `pat` as a prefix nor being a start of `pat` that could be completed
past the end of `x`), the scan passes over `x` untouched. -/
theorem replaceAll_skip (pat rep : Str) :
    ∀ (x s : Str),
      (∀ xd ∈ x.tails, xd ≠ [] → ¬ pat <+: xd ∧ ¬ xd <+: pat) →
      replaceAll (x ++ s) pat rep = x ++ replaceAll s pat rep := by
  intro x
  induction x with
  | nil => intro s _; simp
  | cons c x ih =>
    intro s h
    have hmm := h (c :: x) (by simp) (by simp)
    have hno : ¬ (pat ≠ [] ∧ pat.isPrefixOf (c :: x ++ s)) := by
      rintro ⟨_, hpre⟩
      have hpre' : pat <+: (c :: x) ++ s := (isPrefixOfIff pat _).mp hpre
      rcases prefixSplitAppend pat (c :: x) s hpre' with h' | h'
      · exact hmm.1 h'
      · exact hmm.2 h'
    have hih := ih s (fun xd hxd hne =>
      h xd (by rw [List.tails_cons]; exact List.mem_cons_of_mem _ hxd) hne)
    rw [List.cons_append, replaceAll_cons_no pat rep c (x ++ s) hno, hih,
      List.cons_append]

/-- Characters emitted by the scan come from the input or from the
replacement string. -/
theorem raFuel_mem (pat rep : Str) :
    ∀ f s c, c ∈ raFuel pat rep f s → c ∈ s ∨ c ∈ rep := by
  intro f
  induction f with
  | zero => intro s c hc; exact Or.inl hc
  | succ f ih =>
    intro s c hc
    cases s with
    | nil => simp [raFuel_nil] at hc
    | cons a rest =>
      unfold raFuel at hc
      split at hc
      · rcases List.mem_append.mp hc with h | h
        · exact Or.inr h
        · rcases ih _ c h with h' | h'
          · exact Or.inl (List.mem_cons_of_mem _ (List.mem_of_mem_drop h'))
          · exact Or.inr h'
      · rcases List.mem_cons.mp hc with h | h
        · exact Or.inl (h ▸ List.mem_cons_self a rest)
        · rcases ih _ c h with h' | h'
          · exact Or.inl (List.mem_cons_of_mem _ h')
          · exact Or.inr h'

theorem replaceAll_mem (s pat rep : Str) (c : Char) (hc : c ∈ replaceAll s pat rep) :
    c ∈ s ∨ c ∈ rep :=
  raFuel_mem pat rep s.length s c hc

theorem splitOnChar_cons (sep x : Char) (rest : Str) :
    splitOnChar sep (x :: rest) =
      match splitOnChar sep rest with
      | [] => [[]]
      | h :: t => if x = sep then [] :: h :: t else (x :: h) :: t := rfl

theorem splitOnChar_ne_nil (sep : Char) : ∀ s, splitOnChar sep s ≠ [] := by
  intro s
  cases s with
  | nil => simp [splitOnChar]
  | cons x rest =>
    rw [splitOnChar_cons]
    cases splitOnChar sep rest with
    | nil => simp
    | cons h t =>
      by_cases hx : x = sep
      · simp [hx]
      · simp [hx]

theorem splitOnChar_cons_parts (sep : Char) (s : Str) :
    ∃ h t, splitOnChar sep s = h :: t := by
  cases hsp : splitOnChar sep s with
  | nil => exact absurd hsp (splitOnChar_ne_nil sep s)
  | cons h t => exact ⟨h, t, rfl⟩

/-- Splitting distributes over a separator occurrence. -/
theorem splitOnChar_append (sep : Char) :
    ∀ (x r : Str), splitOnChar sep (x ++ sep :: r) =
      splitOnChar sep x ++ splitOnChar sep r := by
  intro x
  induction x with
  | nil =>
    intro r
    obtain ⟨h, t, hr⟩ := splitOnChar_cons_parts sep r
    show splitOnChar sep (sep :: r) = splitOnChar sep [] ++ splitOnChar sep r
    rw [splitOnChar_cons, hr]
    simp [splitOnChar]
  | cons a x ih =>
    intro r
    obtain ⟨h, t, hx⟩ := splitOnChar_cons_parts sep x
    show splitOnChar sep (a :: (x ++ sep :: r)) = splitOnChar sep (a :: x) ++ splitOnChar sep r
    rw [splitOnChar_cons sep a (x ++ sep :: r), ih r, hx,
      splitOnChar_cons sep a x, hx]
    by_cases ha : a = sep
    · simp [ha]
    · simp [ha]

/-- A separator-free string is a single split part. -/
theorem splitOnChar_sep_free (sep : Char) :
    ∀ s : Str, sep ∉ s → splitOnChar sep s = [s] := by
  intro s
  induction s with
  | nil => intro _; rfl
  | cons a s ih =>
    intro h
    have ha : a ≠ sep := fun e => h (e ▸ List.mem_cons_self a s)
    have hs : sep ∉ s := fun m => h (List.mem_cons_of_mem a m)
    show splitOnChar sep (a :: s) = [a :: s]
    unfold splitOnChar
    rw [ih hs]
    simp [ha]

theorem splitOnChar_mem_subset (sep : Char) :
    ∀ (s : Str) (y : Str), y ∈ splitOnChar sep s → ∀ c ∈ y, c ∈ s := by
  intro s
  induction s with
  | nil =>
    intro y hy c hc
    simp [splitOnChar] at hy
    subst hy
    simp at hc
  | cons a s ih =>
    intro y hy c hc
    obtain ⟨h, t, hs⟩ := splitOnChar_cons_parts sep s
    rw [splitOnChar_cons, hs] at hy
    dsimp only at hy
    by_cases ha : a = sep
    · rw [if_pos ha] at hy
      rcases List.mem_cons.mp hy with rfl | hy'
      · simp at hc
      · exact List.mem_cons_of_mem a (ih y (hs ▸ hy') c hc)
    · rw [if_neg ha] at hy
      rcases List.mem_cons.mp hy with rfl | hy'
      · rcases List.mem_cons.mp hc with rfl | hc'
        · exact List.mem_cons_self c s
        · exact List.mem_cons_of_mem a
            (ih h (hs ▸ List.mem_cons_self h t) c hc')
      · exact List.mem_cons_of_mem a
          (ih y (hs ▸ List.mem_cons_of_mem h hy') c hc)

theorem joinSep_mem (sep : Str) :
    ∀ (l : List Str) (c : Char), c ∈ joinSep sep l →
      c ∈ sep ∨ ∃ x ∈ l, c ∈ x := by
  intro l
  induction l with
  | nil => intro c hc; simp [joinSep] at hc
  | cons x l ih =>
    intro c hc
    cases l with
    | nil =>
      exact Or.inr ⟨x, List.mem_cons_self x [], hc⟩
    | cons y t =>
      simp only [joinSep, List.append_assoc, List.mem_append] at hc
      rcases hc with hc | hc | hc
      · exact Or.inr ⟨x, List.mem_cons_self x _, hc⟩
      · exact Or.inl hc
      · rcases ih c hc with h | ⟨z, hz, hcz⟩
        · exact Or.inl h
        · exact Or.inr ⟨z, List.mem_cons_of_mem x hz, hcz⟩

/-- A part of the list occurs contiguously in the join. -/
theorem joinSep_infix (sep : Str) :
    ∀ (l : List Str) (x : Str), x ∈ l → x <:+: joinSep sep l := by
  intro l
  induction l with
  | nil => intro x hx; simp at hx
  | cons y l ih =>
    intro x hx
    rcases List.mem_cons.mp hx with rfl | hx'
    · cases l with
      | nil => exact ⟨[], [], by simp [joinSep]⟩
      | cons z t => exact ⟨[], sep ++ joinSep sep (z :: t), by simp [joinSep]⟩
    · cases l with
      | nil => simp at hx'
      | cons z t =>
        have hinf := ih x hx'
        have : joinSep sep (y :: z :: t) = (y ++ sep) ++ joinSep sep (z :: t) := by
          simp [joinSep]
        rw [this]
        exact hinf.trans ⟨y ++ sep, [], by simp⟩

theorem trimStr_subset (s : Str) : ∀ c ∈ trimStr s, c ∈ s := by
  intro c hc
  unfold trimStr at hc
  rw [List.mem_reverse] at hc
  have h1 := (List.dropWhile_sublist isWS).subset hc
  rw [List.mem_reverse] at h1
  exact (List.dropWhile_sublist isWS).subset h1

theorem trimStr_no_ws (s : Str) (h : ∀ c ∈ s, isWS c = false) : trimStr s = s := by
  have h1 : s.dropWhile isWS = s := by
    cases s with
    | nil => rfl
    | cons a s' =>
      rw [List.dropWhile_cons, if_neg]
      simp [h a (List.mem_cons_self a s')]
  have h2 : s.reverse.dropWhile isWS = s.reverse := by
    cases hs : s.reverse with
    | nil => rfl
    | cons a s' =>
      rw [List.dropWhile_cons, if_neg]
      have ha : a ∈ s := by
        rw [← List.mem_reverse, hs]; exact List.mem_cons_self a s'
      simp [h a ha]
  unfold trimStr
  rw [h1, h2, List.reverse_reverse]

theorem normalizeLines_mem (s : Str) :
    ∀ c ∈ normalizeLines s, c = '\n' ∨ c ∈ s := by
  intro c hc
  rcases joinSep_mem (str "\n") _ c hc with h | ⟨x, hx, hcx⟩
  · left
    simpa [str] using h
  · right
    obtain ⟨y, hy, rfl⟩ := List.mem_map.mp hx
    exact splitOnChar_mem_subset '\n' s y hy c (trimStr_subset y c hcx)

theorem normalizeLines_id (s : Str)
    (h : ∀ c ∈ s, isWS c = false) : normalizeLines s = s := by
  have hnl : '\n' ∉ s := fun m => by simpa [isWS] using h '\n' m
  unfold normalizeLines
  rw [splitOnChar_sep_free '\n' s hnl]
  show joinSep (str "\n") [trimStr s] = s
  rw [trimStr_no_ws s h]
  rfl

/-- If a separator-free section is enclosed by separators, trimming and
re-joining keeps it as a contiguous section of the output. -/
theorem normalizeLines_keeps_line (x y z : Str)
    (hy : '\n' ∉ y) (hyt : trimStr y = y) :
    y <:+: normalizeLines (x ++ '\n' :: (y ++ '\n' :: z)) := by
  unfold normalizeLines
  rw [splitOnChar_append '\n' x (y ++ '\n' :: z),
    splitOnChar_append '\n' y z,
    splitOnChar_sep_free '\n' y hy]
  apply joinSep_infix
  rw [List.map_append, List.map_append]
  refine List.mem_append.mpr (Or.inr (List.mem_append.mpr (Or.inl ?_)))
  simp [hyt]

theorem digitChar_mem (n : Nat) : digitChar n ∈ str "0123456789" := by
  unfold digitChar
  split <;> decide

theorem natToCharsFuel_mem :
    ∀ f n c, c ∈ natToCharsFuel f n → c ∈ str "0123456789" := by
  intro f
  induction f with
  | zero =>
    intro n c hc
    simp only [natToCharsFuel, List.mem_singleton] at hc
    exact hc ▸ digitChar_mem n
  | succ f ih =>
    intro n c hc
    unfold natToCharsFuel at hc
    split at hc
    · simp only [List.mem_singleton] at hc
      exact hc ▸ digitChar_mem n
    · rcases List.mem_append.mp hc with h | h
      · exact ih _ c h
      · simp only [List.mem_singleton] at h
        exact h ▸ digitChar_mem (n % 10)

theorem natToChars_mem (n : Nat) : ∀ c ∈ natToChars n, c ∈ str "0123456789" :=
  fun c hc => natToCharsFuel_mem n n c hc

theorem pad2_mem (n : Nat) : ∀ c ∈ pad2 n, c ∈ str "0123456789" := by
  intro c hc
  unfold pad2 at hc
  split at hc
  · rcases List.mem_cons.mp hc with rfl | h
    · decide
    · exact natToChars_mem n c h
  · exact natToChars_mem n c hc

theorem tokenPat_ne_nil : ∀ t : Token, tokenPat t ≠ [] := by decide

theorem tokenPat_head : ∀ t : Token, ∃ p, tokenPat t = '{' :: p := by
  intro t
  cases t <;> exact ⟨_, rfl⟩

theorem tokenPat_has_lb : ∀ t : Token, '{' ∈ tokenPat t := by decide

/-- Distinct placeholder literals can never overlap: no nonempty suffix of
one token's literal is prefix-compatible with another token's literal. -/
theorem tokenPat_no_overlap :
    ∀ t t' : Token, t ≠ t' →
      ∀ xd ∈ (tokenPat t').tails, xd ≠ [] →
        ¬ tokenPat t <+: xd ∧ ¬ xd <+: tokenPat t := by
  decide

/-- A chunk without a left brace can never begin a placeholder match. -/
theorem skip_of_noLB (pat rep x s : Str) (hx : noLB x)
    (hp : ∃ p, pat = '{' :: p) :
    replaceAll (x ++ s) pat rep = x ++ replaceAll s pat rep := by
  apply replaceAll_skip
  intro xd hxd hne
  obtain ⟨p, rfl⟩ := hp
  have hsub : ∀ c ∈ xd, c ∈ x := fun c hc =>
    ((List.mem_tails _ _).mp hxd).subset hc
  cases xd with
  | nil => exact absurd rfl hne
  | cons a xd' =>
    have ha : a ≠ '{' := hx a (hsub a (List.mem_cons_self a xd'))
    constructor
    · intro hpre
      rw [List.cons_prefix_cons] at hpre
      exact ha hpre.1.symm
    · intro hpre
      rw [List.cons_prefix_cons] at hpre
      exact ha hpre.1

/-- One pass of the scanner over a rendered segment list substitutes
exactly the occurrences of the processed token. -/
theorem subst_pass (vals : Token → Str) (t : Token) (done : Token → Bool) :
    ∀ segs : List Seg,
      (∀ s, Seg.lit s ∈ segs → noLB s) →
      (∀ t', noLB (vals t')) →
      replaceAll (renderSegs done vals segs) (tokenPat t) (vals t)
        = renderSegs (fun t' => done t' || t' == t) vals segs := by
  intro segs
  induction segs with
  | nil => intro _ _; rfl
  | cons seg rest ih =>
    intro hlits hvals
    have ihr := ih (fun s hs => hlits s (List.mem_cons_of_mem seg hs)) hvals
    cases seg with
    | lit s =>
      show replaceAll (s ++ renderSegs done vals rest) (tokenPat t) (vals t)
        = s ++ renderSegs (fun t' => done t' || t' == t) vals rest
      rw [skip_of_noLB (tokenPat t) (vals t) s _
        (hlits s (List.mem_cons_self _ _)) (tokenPat_head t), ihr]
    | hole t' =>
      show replaceAll ((cond (done t') (vals t') (tokenPat t'))
          ++ renderSegs done vals rest) (tokenPat t) (vals t)
        = (cond (done t' || t' == t) (vals t') (tokenPat t'))
          ++ renderSegs (fun u => done u || u == t) vals rest
      cases hd : done t' with
      | true =>
        simp only [Bool.true_or, cond_true]
        rw [skip_of_noLB (tokenPat t) (vals t) (vals t') _
          (hvals t') (tokenPat_head t), ihr]
      | false =>
        simp only [Bool.false_or, cond_false]
        by_cases ht : t' = t
        · subst ht
          simp only [beq_self_eq_true, cond_true]
          rw [replaceAll_cons_match (tokenPat t') (vals t') _ (tokenPat_ne_nil t'), ihr]
        · have hbeq : (t' == t) = false := beq_eq_false_iff_ne.mpr ht
          rw [hbeq]
          simp only [cond_false]
          rw [replaceAll_skip (tokenPat t) (vals t) (tokenPat t') _
            (tokenPat_no_overlap t t' (fun e => ht e.symm)), ihr]

theorem renderSegs_congr (vals : Token → Str) (d1 d2 : Token → Bool)
    (h : ∀ t, d1 t = d2 t) :
    ∀ segs, renderSegs d1 vals segs = renderSegs d2 vals segs := by
  have : d1 = d2 := funext h
  intro segs
  rw [this]

/-- Running the token passes in sequence marks exactly those tokens done. -/
theorem subst_all (vals : Token → Str) :
    ∀ (ts : List Token) (done : Token → Bool) (segs : List Seg),
      (∀ s, Seg.lit s ∈ segs → noLB s) →
      (∀ t', noLB (vals t')) →
      substTokens vals ts (renderSegs done vals segs)
        = renderSegs (fun t => done t || decide (t ∈ ts)) vals segs := by
  intro ts
  induction ts with
  | nil =>
    intro done segs _ _
    show renderSegs done vals segs = _
    apply renderSegs_congr
    intro t
    simp
  | cons t ts ih =>
    intro done segs hlits hvals
    show substTokens vals ts
        (replaceAll (renderSegs done vals segs) (tokenPat t) (vals t)) = _
    rw [subst_pass vals t done segs hlits hvals,
      ih (fun t' => done t' || t' == t) segs hlits hvals]
    apply renderSegs_congr
    intro u
    by_cases hu : u = t
    · subst hu; simp
    · have : (u == t) = false := beq_eq_false_iff_ne.mpr hu
      simp [this, hu]

theorem renderSegs_true_noLB (vals : Token → Str) :
    ∀ segs : List Seg,
      (∀ s, Seg.lit s ∈ segs → noLB s) →
      (∀ t', noLB (vals t')) →
      noLB (renderSegs (fun _ => true) vals segs) := by
  intro segs
  induction segs with
  | nil => intro _ _ c hc; simp [renderSegs] at hc
  | cons seg rest ih =>
    intro hlits hvals c hc
    have ihr := ih (fun s hs => hlits s (List.mem_cons_of_mem seg hs)) hvals
    cases seg with
    | lit s =>
      rcases List.mem_append.mp hc with h | h
      · exact hlits s (List.mem_cons_self _ _) c h
      · exact ihr c h
    | hole t =>
      rcases List.mem_append.mp hc with h | h
      · exact hvals t c (by simpa using h)
      · exact ihr c h

theorem noResidual_of_noLB (s : Str) (h : noLB s) : noResidual s := by
  intro t hinf
  exact h '{' (hinf.subset (tokenPat_has_lb t)) rfl

theorem normalizeLines_noLB (s : Str) (h : noLB s) : noLB (normalizeLines s) := by
  intro c hc
  rcases normalizeLines_mem s c hc with rfl | h'
  · decide
  · exact h c h'

theorem generateLicenseContent_eq (filename : Str) (m : Metadata) (now : JSDate)
    (tpl : Str) (h : m.licenseTemplate = some tpl) :
    generateLicenseContent filename m now =
      Except.ok (normalizeLines
        (substTokens (tokenVals filename m now) tokenOrder (htmlToText tpl))) := by
  unfold generateLicenseContent
  rw [h]
  rfl

theorem noLB_append (a b : Str) (ha : noLB a) (hb : noLB b) : noLB (a ++ b) := by
  intro c hc
  rcases List.mem_append.mp hc with h | h
  · exact ha c h
  · exact hb c h

theorem noLB_cons (c0 : Char) (s : Str) (hc0 : c0 ≠ '{') (hs : noLB s) :
    noLB (c0 :: s) := by
  intro c hc
  rcases List.mem_cons.mp hc with rfl | h
  · exact hc0
  · exact hs c h

theorem noLB_of_digits (s : Str) (hs : ∀ c ∈ s, c ∈ str "0123456789") : noLB s :=
  fun c hc => (by decide : ∀ c ∈ str "0123456789", c ≠ '{') c (hs c hc)

theorem enCA_noLB (d : JSDate) : noLB (enCA d) := by
  unfold enCA
  exact noLB_append _ _ (noLB_of_digits _ (natToChars_mem d.year))
    (noLB_cons _ _ (by decide)
      (noLB_append _ _ (noLB_of_digits _ (pad2_mem d.month))
        (noLB_cons _ _ (by decide) (noLB_of_digits _ (pad2_mem d.day)))))

theorem enGB_noLB (d : JSDate) : noLB (enGB d) := by
  unfold enGB
  exact noLB_append _ _ (noLB_of_digits _ (pad2_mem d.day))
    (noLB_cons _ _ (by decide)
      (noLB_append _ _ (noLB_of_digits _ (pad2_mem d.month))
        (noLB_cons _ _ (by decide) (noLB_of_digits _ (natToChars_mem d.year)))))

theorem localeDefault_noLB (d : JSDate) : noLB (localeDefault d) := by
  unfold localeDefault
  exact noLB_append _ _ (noLB_of_digits _ (natToChars_mem d.month))
    (noLB_cons _ _ (by decide)
      (noLB_append _ _ (noLB_of_digits _ (natToChars_mem d.day))
        (noLB_cons _ _ (by decide) (noLB_of_digits _ (natToChars_mem d.year)))))

theorem takeDigits_parts :
    ∀ (n : Nat) (s g r : Str), takeDigits n s = some (g, r) → s = g ++ r := by
  intro n
  induction n with
  | zero =>
    intro s g r h
    simp only [takeDigits, Option.some_inj, Prod.mk.injEq] at h
    rw [← h.1, ← h.2]
    rfl
  | succ n ih =>
    intro s g r h
    cases s with
    | nil => simp [takeDigits] at h
    | cons c s' =>
      unfold takeDigits at h
      split at h
      · cases ht : takeDigits n s' with
        | none => rw [ht] at h; simp at h
        | some p =>
          obtain ⟨g', rest⟩ := p
          rw [ht] at h
          simp only [Option.some_inj, Prod.mk.injEq] at h
          rw [← h.1, ← h.2, List.cons_append]
          rw [ih s' g' rest ht]
      · simp at h

theorem matchSlash_parts (s r : Str) (h : matchSlash s = some r) : s = '/' :: r := by
  cases s with
  | nil => simp [matchSlash] at h
  | cons c s' =>
    by_cases hc : c = '/'
    · subst hc
      simp only [matchSlash, Option.some_inj] at h
      rw [h]
    · unfold matchSlash at h
      split at h
      · rename_i heq
        rw [List.cons.injEq] at heq
        exact absurd heq.1 hc
      · simp at h

theorem tryMYWidth_parts (n1 : Nat) (s g1 g2 r : Str)
    (h : tryMYWidth n1 s = some (g1, g2, r)) :
    s = g1 ++ '/' :: (g2 ++ r) := by
  unfold tryMYWidth at h
  cases h1 : takeDigits n1 s with
  | none => rw [h1] at h; simp at h
  | some p1 =>
    obtain ⟨a1, r1⟩ := p1
    rw [h1] at h
    dsimp only at h
    cases h2 : matchSlash r1 with
    | none => rw [h2] at h; simp at h
    | some r2 =>
      rw [h2] at h
      dsimp only at h
      cases h3 : takeDigits 4 r2 with
      | none => rw [h3] at h; simp at h
      | some p3 =>
        obtain ⟨a2, r3⟩ := p3
        rw [h3] at h
        dsimp only at h
        simp only [Option.some_inj, Prod.mk.injEq] at h
        obtain ⟨e1, e2, e3⟩ := h
        rw [← e1, ← e2, ← e3]
        rw [takeDigits_parts n1 s a1 r1 h1, matchSlash_parts r1 r2 h2,
          takeDigits_parts 4 r2 a2 r3 h3]

theorem tryMYAt_parts (s g1 g2 r : Str) (h : tryMYAt s = some (g1, g2, r)) :
    s = g1 ++ '/' :: (g2 ++ r) := by
  unfold tryMYAt at h
  cases h2 : tryMYWidth 2 s with
  | none =>
    rw [h2] at h
    exact tryMYWidth_parts 1 s g1 g2 r h
  | some x =>
    rw [h2] at h
    simp only [Option.some_inj] at h
    exact tryMYWidth_parts 2 s g1 g2 r (h ▸ h2)

theorem regexReplMY_mem :
    ∀ (s : Str) (c : Char), c ∈ regexReplMY s → c ∈ s ∨ c = '-' := by
  intro s
  induction s with
  | nil => intro c hc; simp [regexReplMY] at hc
  | cons a rest ih =>
    intro c hc
    unfold regexReplMY at hc
    cases ht : tryMYAt (a :: rest) with
    | some x =>
      obtain ⟨g1, g2, r⟩ := x
      rw [ht] at hc
      have hparts := tryMYAt_parts (a :: rest) g1 g2 r ht
      rcases List.mem_append.mp hc with h | h
      · exact Or.inl (hparts ▸ List.mem_append.mpr
          (Or.inr (List.mem_cons_of_mem _ (List.mem_append.mpr (Or.inl h)))))
      · rcases List.mem_cons.mp h with rfl | h'
        · exact Or.inr rfl
        · rcases List.mem_append.mp h' with h'' | h''
          · exact Or.inl (hparts ▸ List.mem_append.mpr (Or.inl h''))
          · exact Or.inl (hparts ▸ List.mem_append.mpr
              (Or.inr (List.mem_cons_of_mem _ (List.mem_append.mpr (Or.inr h'')))))
    | none =>
      rw [ht] at hc
      rcases List.mem_cons.mp hc with rfl | h
      · exact Or.inl (List.mem_cons_self _ _)
      · rcases ih c h with h' | h'
        · exact Or.inl (List.mem_cons_of_mem _ h')
        · exact Or.inr h'

theorem tryDMYTail_parts (g1 r1 : Str) (n2 : Nat) (a b g3 r : Str)
    (h : tryDMYTail g1 r1 n2 = some (a, b, g3, r)) :
    a = g1 ∧ r1 = b ++ '/' :: (g3 ++ r) := by
  unfold tryDMYTail at h
  cases h1 : takeDigits n2 r1 with
  | none => rw [h1] at h; simp at h
  | some p1 =>
    obtain ⟨g2, r2⟩ := p1
    rw [h1] at h
    dsimp only at h
    cases h2 : matchSlash r2 with
    | none => rw [h2] at h; simp at h
    | some r3 =>
      rw [h2] at h
      dsimp only at h
      cases h3 : takeDigits 4 r3 with
      | none => rw [h3] at h; simp at h
      | some p3 =>
        obtain ⟨a3, r4⟩ := p3
        rw [h3] at h
        dsimp only at h
        simp only [Option.some_inj, Prod.mk.injEq] at h
        obtain ⟨e1, e2, e3, e4⟩ := h
        refine ⟨e1.symm, ?_⟩
        rw [← e2, ← e3, ← e4]
        rw [takeDigits_parts n2 r1 g2 r2 h1, matchSlash_parts r2 r3 h2,
          takeDigits_parts 4 r3 a3 r4 h3]

theorem tryDMYFrom_parts (n1 : Nat) (s a b g3 r : Str)
    (h : tryDMYFrom n1 s = some (a, b, g3, r)) :
    s = a ++ '/' :: (b ++ '/' :: (g3 ++ r)) := by
  unfold tryDMYFrom at h
  cases h1 : takeDigits n1 s with
  | none => rw [h1] at h; simp at h
  | some p1 =>
    obtain ⟨g1, r1⟩ := p1
    rw [h1] at h
    dsimp only at h
    cases h2 : matchSlash r1 with
    | none => rw [h2] at h; simp at h
    | some r2 =>
      rw [h2] at h
      dsimp only at h
      cases h3 : tryDMYTail g1 r2 2 with
      | some x =>
        rw [h3] at h
        simp only [Option.some_inj] at h
        obtain ⟨rfl, hr2⟩ := tryDMYTail_parts g1 r2 2 a b g3 r (h ▸ h3)
        rw [takeDigits_parts n1 s a r1 h1, matchSlash_parts r1 r2 h2, hr2]
      | none =>
        rw [h3] at h
        obtain ⟨rfl, hr2⟩ := tryDMYTail_parts g1 r2 1 a b g3 r h
        rw [takeDigits_parts n1 s a r1 h1, matchSlash_parts r1 r2 h2, hr2]

theorem tryDMYAt_parts (s a b g3 r : Str) (h : tryDMYAt s = some (a, b, g3, r)) :
    s = a ++ '/' :: (b ++ '/' :: (g3 ++ r)) := by
  unfold tryDMYAt at h
  cases h2 : tryDMYFrom 2 s with
  | none =>
    rw [h2] at h
    exact tryDMYFrom_parts 1 s a b g3 r h
  | some x =>
    rw [h2] at h
    simp only [Option.some_inj] at h
    exact tryDMYFrom_parts 2 s a b g3 r (h ▸ h2)

theorem regexReplDMY_mem :
    ∀ (s : Str) (c : Char), c ∈ regexReplDMY s → c ∈ s ∨ c = '-' := by
  intro s
  induction s with
  | nil => intro c hc; simp [regexReplDMY] at hc
  | cons a rest ih =>
    intro c hc
    unfold regexReplDMY at hc
    cases ht : tryDMYAt (a :: rest) with
    | some x =>
      obtain ⟨g1, g2, g3, r⟩ := x
      rw [ht] at hc
      have hparts := tryDMYAt_parts (a :: rest) g1 g2 g3 r ht
      have hin : ∀ d, d ∈ g1 ∨ d ∈ g2 ∨ d ∈ g3 ∨ d ∈ r → d ∈ a :: rest := by
        intro d hd
        rw [hparts]
        rcases hd with h | h | h | h
        · exact List.mem_append.mpr (Or.inl h)
        · exact List.mem_append.mpr (Or.inr (List.mem_cons_of_mem _
            (List.mem_append.mpr (Or.inl h))))
        · exact List.mem_append.mpr (Or.inr (List.mem_cons_of_mem _
            (List.mem_append.mpr (Or.inr (List.mem_cons_of_mem _
              (List.mem_append.mpr (Or.inl h)))))))
        · exact List.mem_append.mpr (Or.inr (List.mem_cons_of_mem _
            (List.mem_append.mpr (Or.inr (List.mem_cons_of_mem _
              (List.mem_append.mpr (Or.inr h)))))))
      rcases List.mem_append.mp hc with h | h
      · exact Or.inl (hin c (Or.inl h))
      · rcases List.mem_cons.mp h with rfl | h'
        · exact Or.inr rfl
        · rcases List.mem_append.mp h' with h'' | h''
          · exact Or.inl (hin c (Or.inr (Or.inl h'')))
          · rcases List.mem_cons.mp h'' with rfl | h3
            · exact Or.inr rfl
            · rcases List.mem_append.mp h3 with h4 | h4
              · exact Or.inl (hin c (Or.inr (Or.inr (Or.inl h4))))
              · exact Or.inl (hin c (Or.inr (Or.inr (Or.inr h4))))
    | none =>
      rw [ht] at hc
      rcases List.mem_cons.mp hc with rfl | h
      · exact Or.inl (List.mem_cons_self _ _)
      · rcases ih c h with h' | h'
        · exact Or.inl (List.mem_cons_of_mem _ h')
        · exact Or.inr h'

theorem formatDate_noLB (d : JSDate) (fmt : Option Str) : noLB (formatDate d fmt) := by
  unfold formatDate
  split
  · exact enCA_noLB d
  · split
    · intro c hc
      rcases regexReplMY_mem (enGB d) c hc with h | rfl
      · exact enGB_noLB d c h
      · decide
    · split
      · intro c hc
        rcases regexReplDMY_mem (enGB d) c hc with h | rfl
        · exact enGB_noLB d c h
        · decide
      · exact localeDefault_noLB d

theorem resolveField_noLB (v d : Str) (hv : noLB v) (hd : noLB d) :
    noLB (resolveField v d) := by
  unfold resolveField
  split
  · exact hd
  · exact hv

theorem joinSep_noLB (sep : Str) (l : List Str) (hsep : noLB sep)
    (hl : ∀ x ∈ l, noLB x) : noLB (joinSep sep l) := by
  intro c hc
  rcases joinSep_mem sep l c hc with h | ⟨x, hx, hcx⟩
  · exact hsep c h
  · exact hl x hx c hcx

theorem authorsListVal_noLB (m : Metadata) (hauth : ∀ a ∈ m.authors, noLB a) :
    noLB (authorsListVal m) := by
  unfold authorsListVal
  split
  · exact joinSep_noLB _ _ (by decide) hauth
  · decide

/-- All substitution values are left-brace-free provided the raw field
values and the filename are. -/
theorem tokenVals_noLB (filename : Str) (m : Metadata) (now : JSDate)
    (hfn : noLB filename)
    (hauth : ∀ a ∈ m.authors, noLB a)
    (hinst : noLB m.institution) (hweb : noLB m.website) (hcon : noLB m.contact) :
    ∀ t, noLB (tokenVals filename m now t) := by
  intro t
  cases t with
  | filename => exact hfn
  | downloadDate => exact formatDate_noLB now m.dateFormat
  | year => exact noLB_of_digits _ (natToChars_mem now.year)
  | institution => exact resolveField_noLB _ _ hinst (by decide)
  | website => exact resolveField_noLB _ _ hweb (by decide)
  | contact => exact resolveField_noLB _ _ hcon (by decide)
  | authorsList => exact authorsListVal_noLB m hauth

theorem defaultTemplate_decomp (vals : Token → Str) :
    renderSegs (fun _ => false) vals defaultTemplateSegs = defaultLicenseTemplate := rfl

theorem defaultTemplate_htmlToText :
    htmlToText defaultLicenseTemplate = defaultLicenseTemplate := by decide

theorem defaultSegs_lits : defaultTemplateSegs.all segLitNoLB = true := by decide

theorem lits_noLB_of_all (segs : List Seg) (h : segs.all segLitNoLB = true) :
    ∀ s, Seg.lit s ∈ segs → noLB s := by
  intro s hs c hc
  have h1 := List.all_eq_true.mp h _ hs
  simp only [segLitNoLB, List.all_eq_true, decide_eq_true_eq] at h1
  exact h1 c hc

theorem tokenOrder_complete : ∀ t : Token, (false || decide (t ∈ tokenOrder)) = true := by
  decide

/-- Substituting all seven tokens into the default template yields the
fully-filled rendering of its segments. -/
theorem defaultTemplate_subst (vals : Token → Str) (hvals : ∀ t, noLB (vals t)) :
    substTokens vals tokenOrder defaultLicenseTemplate
      = renderSegs (fun _ => true) vals defaultTemplateSegs := by
  rw [← defaultTemplate_decomp vals,
    subst_all vals tokenOrder (fun _ => false) defaultTemplateSegs
      (lits_noLB_of_all defaultTemplateSegs defaultSegs_lits) hvals]
  exact renderSegs_congr vals _ _ tokenOrder_complete defaultTemplateSegs

theorem defaultTemplate_subst_noLB (vals : Token → Str) (hvals : ∀ t, noLB (vals t)) :
    noLB (substTokens vals tokenOrder defaultLicenseTemplate) := by
  rw [defaultTemplate_subst vals hvals]
  exact renderSegs_true_noLB vals defaultTemplateSegs
    (lits_noLB_of_all defaultTemplateSegs defaultSegs_lits) hvals

theorem replaceAll_no_match (x pat rep : Str) (h : cantMatch pat x) :
    replaceAll x pat rep = x := by
  have h2 := replaceAll_skip pat rep x [] h
  rw [List.append_nil] at h2
  rw [h2, replaceAll_nil, List.append_nil]

theorem lastSeg_concat : ∀ (A : List Str) (x : Str), lastSeg (A ++ [x]) = x := by
  intro A
  induction A with
  | nil => intro x; rfl
  | cons a A ih =>
    intro x
    cases A with
    | nil => rfl
    | cons b A' =>
      show lastSeg (b :: (A' ++ [x])) = x
      exact ih x

/-! ### Occurrence lemmas for the scanner, the splitter and the trimmer -/

theorem valSafe_noLB (s : Str) (h : valSafe s) : noLB s :=
  fun c hc => (h c hc).1

theorem infixOfPre {x s : Str} (h : x <+: s) : x <:+: s := by
  obtain ⟨t, rfl⟩ := h
  exact ⟨[], t, rfl⟩

theorem infixOfSuf {x s : Str} (h : x <:+ s) : x <:+: s := by
  obtain ⟨p, rfl⟩ := h
  exact ⟨p, [], by simp⟩

theorem infixConsOf {x s : Str} (c : Char) (h : x <:+: s) : x <:+: c :: s := by
  obtain ⟨p, q, rfl⟩ := h
  exact ⟨c :: p, q, rfl⟩

theorem infixConsElim {x s : Str} {c : Char} (h : x <:+: c :: s) :
    x <+: c :: s ∨ x <:+: s := by
  obtain ⟨p, q, hpq⟩ := h
  cases p with
  | nil =>
    left
    rw [List.nil_append] at hpq
    exact ⟨q, hpq⟩
  | cons d p' =>
    right
    rw [List.cons_append, List.cons_append] at hpq
    injection hpq with h1 h2
    exact ⟨p', q, h2⟩

/-- An occurrence inside `A ++ B` lies in `A`, lies in `B`, or spans the
boundary with a nonempty part on each side. -/
theorem infixAppendSplit :
    ∀ (A B x : Str), x <:+: A ++ B →
      x <:+: A ∨ x <:+: B ∨
        ∃ x1 x2, x = x1 ++ x2 ∧ x1 ≠ [] ∧ x2 ≠ [] ∧ x1 <:+ A ∧ x2 <+: B := by
  intro A
  induction A with
  | nil =>
    intro B x h
    exact Or.inr (Or.inl (by simpa using h))
  | cons a A' ih =>
    intro B x h
    have h' : x <:+: a :: (A' ++ B) := by simpa using h
    rcases infixConsElim h' with hpre | hinf
    · rcases prefixSplitAppend x (a :: A') B (by simpa using hpre) with h1 | h1
      · exact Or.inl (infixOfPre h1)
      · obtain ⟨t, rfl⟩ := h1
        have ht : t <+: B := by
          have h2 : (a :: A') ++ t <+: (a :: A') ++ B := by simpa using hpre
          exact (List.prefix_append_right_inj (a :: A')).mp h2
        cases t with
        | nil =>
          refine Or.inl ?_
          rw [List.append_nil]
        | cons u t' =>
          exact Or.inr (Or.inr ⟨a :: A', u :: t', rfl, by simp, by simp,
            List.suffix_refl _, ht⟩)
    · rcases ih B x hinf with h1 | h1 | ⟨x1, x2, hx, hne1, hne2, hs, hp⟩
      · exact Or.inl (infixConsOf a h1)
      · exact Or.inr (Or.inl h1)
      · exact Or.inr (Or.inr ⟨x1, x2, hx, hne1, hne2,
          hs.trans (List.suffix_cons a A'), hp⟩)

/-- If the pattern occurs in the input, at least one match fires, so the
replacement appears verbatim as a contiguous block of the output. -/
theorem replaceAll_hit_aux (pat rep : Str) (hp : pat ≠ []) :
    ∀ (n : Nat) (s : Str), s.length ≤ n → pat <:+: s →
      rep <:+: replaceAll s pat rep := by
  intro n
  induction n with
  | zero =>
    intro s hs hocc
    have hnil : s = [] := List.length_eq_zero.mp (Nat.le_zero.mp hs)
    subst hnil
    exact absurd (by simpa using hocc) hp
  | succ n ih =>
    intro s hs hocc
    cases s with
    | nil => exact absurd (by simpa using hocc) hp
    | cons c rest =>
      by_cases hm : pat.isPrefixOf (c :: rest)
      · obtain ⟨t, ht⟩ := (isPrefixOfIff pat (c :: rest)).mp hm
        rw [← ht, replaceAll_cons_match pat rep t hp]
        exact infixOfPre (List.prefix_append rep _)
      · have hno : ¬ (pat ≠ [] ∧ pat.isPrefixOf (c :: rest)) := fun hcon => hm hcon.2
        rw [replaceAll_cons_no pat rep c rest hno]
        rcases infixConsElim hocc with hpre | hinf
        · exact absurd ((isPrefixOfIff pat (c :: rest)).mpr hpre) hm
        · have hlen : rest.length ≤ n := by
            simp only [List.length_cons] at hs
            omega
          exact infixConsOf c (ih rest hlen hinf)

theorem replaceAll_hit (pat rep s : Str) (hp : pat ≠ []) (h : pat <:+: s) :
    rep <:+: replaceAll s pat rep :=
  replaceAll_hit_aux pat rep hp s.length s (Nat.le_refl _) h

/-- A nonempty prefix of the output whose characters all lie in the
pattern is also a prefix of the input: the scan cannot have fired inside
it when the replacement shares no character with the pattern. -/
theorem replaceAll_pull (pat rep : Str) (hr : rep ≠ [])
    (hdisj : ∀ c ∈ rep, c ∉ pat) :
    ∀ (n : Nat) (s x : Str), s.length ≤ n → x ≠ [] → (∀ c ∈ x, c ∈ pat) →
      x <+: replaceAll s pat rep → x <+: s := by
  intro n
  induction n with
  | zero =>
    intro s x hs hne _ hpre
    have hnil : s = [] := List.length_eq_zero.mp (Nat.le_zero.mp hs)
    subst hnil
    have e : replaceAll ([] : Str) pat rep = [] := rfl
    rw [e] at hpre
    exact absurd (by simpa using hpre) hne
  | succ n ih =>
    intro s x hs hne hsub hpre
    cases s with
    | nil =>
      have e : replaceAll ([] : Str) pat rep = [] := rfl
      rw [e] at hpre
      exact absurd (by simpa using hpre) hne
    | cons c rest =>
      by_cases hm : pat ≠ [] ∧ pat.isPrefixOf (c :: rest)
      · obtain ⟨t, ht⟩ := (isPrefixOfIff pat (c :: rest)).mp hm.2
        rw [← ht, replaceAll_cons_match pat rep t hm.1] at hpre
        obtain ⟨r0, rep', rfl⟩ := List.exists_cons_of_ne_nil hr
        obtain ⟨x0, x', rfl⟩ := List.exists_cons_of_ne_nil hne
        have h0 : x0 = r0 := (List.cons_prefix_cons.mp (by simpa using hpre)).1
        have hx0 : x0 ∈ pat := hsub x0 (List.mem_cons_self x0 x')
        rw [h0] at hx0
        exact absurd hx0 (hdisj r0 (List.mem_cons_self r0 rep'))
      · rw [replaceAll_cons_no pat rep c rest hm] at hpre
        obtain ⟨x0, x', rfl⟩ := List.exists_cons_of_ne_nil hne
        obtain ⟨h0, hx'⟩ := List.cons_prefix_cons.mp hpre
        by_cases hxe : x' = []
        · subst hxe
          exact List.cons_prefix_cons.mpr ⟨h0, List.nil_prefix⟩
        · have hlen : rest.length ≤ n := by
            simp only [List.length_cons] at hs
            omega
          have hsub' : ∀ e ∈ x', e ∈ pat := fun e he =>
            hsub e (List.mem_cons_of_mem x0 he)
          exact List.cons_prefix_cons.mpr ⟨h0, ih rest x' hlen hxe hsub' hx'⟩

/-- After the pass for `pat`, the pattern occurs nowhere in the output,
provided the replacement is nonempty and shares no character with the
pattern (so no occurrence can be re-created at a splice boundary). -/
theorem replaceAll_no_recreate (pat rep : Str) (hp : pat ≠ []) (hr : rep ≠ [])
    (hdisj : ∀ c ∈ rep, c ∉ pat) :
    ∀ (n : Nat) (s : Str), s.length ≤ n → ¬ pat <:+: replaceAll s pat rep := by
  intro n
  induction n with
  | zero =>
    intro s hs hocc
    have hnil : s = [] := List.length_eq_zero.mp (Nat.le_zero.mp hs)
    subst hnil
    have e : replaceAll ([] : Str) pat rep = [] := rfl
    rw [e] at hocc
    exact hp (by simpa using hocc)
  | succ n ih =>
    intro s hs hocc
    cases s with
    | nil =>
      have e : replaceAll ([] : Str) pat rep = [] := rfl
      rw [e] at hocc
      exact hp (by simpa using hocc)
    | cons c rest =>
      obtain ⟨c0, p0, hpat⟩ := List.exists_cons_of_ne_nil hp
      by_cases hm : pat ≠ [] ∧ pat.isPrefixOf (c :: rest)
      · obtain ⟨t, ht⟩ := (isPrefixOfIff pat (c :: rest)).mp hm.2
        rw [← ht, replaceAll_cons_match pat rep t hm.1] at hocc
        rcases infixAppendSplit rep (replaceAll t pat rep) pat hocc with
          h1 | h1 | ⟨x1, x2, hx, hne1, hne2, hsf, hpf⟩
        · have hc0p : c0 ∈ pat := by
            rw [hpat]
            exact List.mem_cons_self c0 p0
          exact hdisj c0 (h1.subset hc0p) hc0p
        · have hlt : t.length ≤ n := by
            have hlen := congrArg List.length ht
            simp only [List.length_append, List.length_cons] at hlen
            have hp1 : 1 ≤ pat.length := by
              rw [hpat]
              simp
            simp only [List.length_cons] at hs
            omega
          exact ih t hlt h1
        · obtain ⟨d, x1', rfl⟩ := List.exists_cons_of_ne_nil hne1
          have hd1 : d ∈ rep := hsf.subset (List.mem_cons_self d x1')
          have hd2 : d ∈ pat := by
            rw [hx]
            exact List.mem_append.mpr (Or.inl (List.mem_cons_self d x1'))
          exact hdisj d hd1 hd2
      · rw [replaceAll_cons_no pat rep c rest hm] at hocc
        have hnpre : ¬ pat.isPrefixOf (c :: rest) = true := fun hcon => hm ⟨hp, hcon⟩
        have hlen : rest.length ≤ n := by
          simp only [List.length_cons] at hs
          omega
        rcases infixConsElim hocc with hpre | hinf
        · nth_rewrite 1 [hpat] at hpre
          obtain ⟨hc0, hp0⟩ := List.cons_prefix_cons.mp hpre
          cases hpx : p0 with
          | nil =>
            apply hnpre
            rw [hpat, hpx, hc0]
            simp [List.isPrefixOf]
          | cons e p0' =>
            have hsubp : ∀ u ∈ p0, u ∈ pat := by
              intro u hu
              rw [hpat]
              exact List.mem_cons_of_mem c0 hu
            have hp0' : p0 <+: rest :=
              replaceAll_pull pat rep hr hdisj n rest p0 hlen (by simp [hpx])
                hsubp hp0
            apply hnpre
            rw [hpat]
            exact (isPrefixOfIff _ _).mpr (List.cons_prefix_cons.mpr ⟨hc0, hp0'⟩)
        · exact ih rest hlen hinf

/-- Occurrences of `pat` survive a pass for a pattern `pat'` whose literal
cannot overlap `pat` in any alignment. -/
theorem replaceAll_preserve (pat pat' rep' : Str) (hp : pat ≠ [])
    (hov1 : ∀ xd ∈ pat.tails, xd ≠ [] → ¬ pat' <+: xd ∧ ¬ xd <+: pat')
    (hov2 : ∀ xd ∈ pat'.tails, xd ≠ [] → ¬ pat <+: xd ∧ ¬ xd <+: pat) :
    ∀ (n : Nat) (s : Str), s.length ≤ n → pat <:+: s →
      pat <:+: replaceAll s pat' rep' := by
  intro n
  induction n with
  | zero =>
    intro s hs hocc
    have hnil : s = [] := List.length_eq_zero.mp (Nat.le_zero.mp hs)
    subst hnil
    exact absurd (by simpa using hocc) hp
  | succ n ih =>
    intro s hs hocc
    by_cases hpre : pat <+: s
    · obtain ⟨t, rfl⟩ := hpre
      rw [replaceAll_skip pat' rep' pat t hov1]
      exact infixOfPre (List.prefix_append pat _)
    · cases s with
      | nil => exact absurd (by simpa using hocc) hp
      | cons c rest =>
        have hlen : rest.length ≤ n := by
          simp only [List.length_cons] at hs
          omega
        by_cases hm : pat' ≠ [] ∧ pat'.isPrefixOf (c :: rest)
        · obtain ⟨t, ht⟩ := (isPrefixOfIff pat' (c :: rest)).mp hm.2
          rw [← ht, replaceAll_cons_match pat' rep' t hm.1]
          rw [← ht] at hocc
          rcases infixAppendSplit pat' t pat hocc with
            h1 | h1 | ⟨x1, x2, hx, hne1, hne2, hsf, hpf⟩
          · obtain ⟨p, q, hpq⟩ := h1
            have hxd : (pat ++ q) <:+ pat' := ⟨p, by rw [← hpq]; simp⟩
            have hov := hov2 (pat ++ q) ((List.mem_tails _ _).mpr hxd)
              (fun hc => hp (List.append_eq_nil.mp hc).1)
            exact absurd (List.prefix_append pat q) hov.1
          · have hlt : t.length ≤ n := by
              have hlen2 := congrArg List.length ht
              simp only [List.length_append, List.length_cons] at hlen2
              have hp1 : 1 ≤ pat'.length := by
                obtain ⟨c1, p1, hpat'⟩ := List.exists_cons_of_ne_nil hm.1
                rw [hpat']
                simp
              simp only [List.length_cons] at hs
              omega
            have hrec := ih t hlt h1
            exact hrec.trans (infixOfSuf (List.suffix_append rep' _))
          · have hov := hov2 x1 ((List.mem_tails _ _).mpr hsf) hne1
            exact absurd ⟨x2, hx.symm⟩ hov.2
        · rw [replaceAll_cons_no pat' rep' c rest hm]
          rcases infixConsElim hocc with hpre2 | hinf
          · exact absurd hpre2 hpre
          · exact infixConsOf c (ih rest hlen hinf)

/-- The `authorsList` placeholder survives the substitution passes for the
other tokens: no other token literal can overlap it. -/
theorem substTokens_preserve (vals : Token → Str) :
    ∀ (ts : List Token) (s : Str), Token.authorsList ∉ ts →
      tokenPat Token.authorsList <:+: s →
      tokenPat Token.authorsList <:+: substTokens vals ts s := by
  intro ts
  induction ts with
  | nil => intro s _ h; exact h
  | cons t ts ih =>
    intro s hmem hocc
    have hne : t ≠ Token.authorsList := fun e => hmem (e ▸ List.mem_cons_self t ts)
    show tokenPat Token.authorsList <:+:
      substTokens vals ts (replaceAll s (tokenPat t) (vals t))
    apply ih _ (fun hm => hmem (List.mem_cons_of_mem t hm))
    exact replaceAll_preserve (tokenPat Token.authorsList) (tokenPat t) (vals t)
      (tokenPat_ne_nil _)
      (tokenPat_no_overlap t Token.authorsList hne)
      (tokenPat_no_overlap Token.authorsList t (fun e => hne e.symm))
      s.length s (Nat.le_refl _) hocc

theorem substTokens_tokenOrder (vals : Token → Str) (s : Str) :
    substTokens vals tokenOrder s
      = replaceAll (substTokens vals frontTokens s) (tokenPat Token.authorsList)
          (vals Token.authorsList) := rfl

theorem authorsList_not_front : Token.authorsList ∉ frontTokens := by decide

/-- The first split part is a prefix of the string. -/
theorem splitOnChar_head_pre (sep : Char) :
    ∀ s, ∃ h t, splitOnChar sep s = h :: t ∧ h <+: s := by
  intro s
  induction s with
  | nil => exact ⟨[], [], rfl, ⟨[], rfl⟩⟩
  | cons c rest ih =>
    obtain ⟨h, t, hsp, hpre⟩ := ih
    by_cases hc : c = sep
    · refine ⟨[], h :: t, ?_, ⟨c :: rest, rfl⟩⟩
      rw [splitOnChar_cons, hsp]
      simp [hc]
    · refine ⟨c :: h, t, ?_, List.cons_prefix_cons.mpr ⟨rfl, hpre⟩⟩
      rw [splitOnChar_cons, hsp]
      simp [hc]

/-- Every split part occurs contiguously in the string. -/
theorem splitOnChar_part_occ (sep : Char) :
    ∀ s y, y ∈ splitOnChar sep s → y <:+: s := by
  intro s
  induction s with
  | nil =>
    intro y hy
    simp only [splitOnChar, List.mem_singleton] at hy
    subst hy
    exact List.infix_refl []
  | cons c rest ih =>
    intro y hy
    obtain ⟨h, t, hsp⟩ := splitOnChar_cons_parts sep rest
    rw [splitOnChar_cons, hsp] at hy
    dsimp only at hy
    by_cases hc : c = sep
    · rw [if_pos hc] at hy
      rcases List.mem_cons.mp hy with rfl | hy'
      · exact ⟨[], c :: rest, rfl⟩
      · refine infixConsOf c (ih y ?_)
        rw [hsp]
        exact hy'
    · rw [if_neg hc] at hy
      rcases List.mem_cons.mp hy with rfl | hy'
      · obtain ⟨h', t', hsp', hpre'⟩ := splitOnChar_head_pre sep rest
        rw [hsp] at hsp'
        injection hsp' with e1 _
        refine infixOfPre (List.cons_prefix_cons.mpr ⟨rfl, ?_⟩)
        rw [e1]
        exact hpre'
      · refine infixConsOf c (ih y ?_)
        rw [hsp]
        exact List.mem_cons_of_mem h hy'

/-- A separator-free prefix of `s` is a prefix of the first split part. -/
theorem splitOnChar_pre_head (sep : Char) :
    ∀ s x, sep ∉ x → x <+: s →
      ∃ h t, splitOnChar sep s = h :: t ∧ x <+: h := by
  intro s
  induction s with
  | nil =>
    intro x _ hpre
    have hnil : x = [] := by simpa using hpre
    subst hnil
    exact ⟨[], [], rfl, ⟨[], rfl⟩⟩
  | cons c rest ih =>
    intro x hx hpre
    cases x with
    | nil =>
      obtain ⟨h0, t0, hsp0, _⟩ := splitOnChar_head_pre sep (c :: rest)
      exact ⟨h0, t0, hsp0, ⟨h0, rfl⟩⟩
    | cons d x' =>
      obtain ⟨hd, hx'⟩ := List.cons_prefix_cons.mp hpre
      have hcne : c ≠ sep := by
        rw [← hd]
        exact fun e => hx (e ▸ List.mem_cons_self d x')
      obtain ⟨h1, t1, hsp1, hpre1⟩ :=
        ih x' (fun m => hx (List.mem_cons_of_mem d m)) hx'
      refine ⟨c :: h1, t1, ?_, List.cons_prefix_cons.mpr ⟨hd, hpre1⟩⟩
      rw [splitOnChar_cons, hsp1]
      simp [hcne]

/-- A separator-free infix lies within one split part. -/
theorem splitOnChar_occ_in_part (sep : Char) :
    ∀ s x, sep ∉ x → x <:+: s → ∃ y ∈ splitOnChar sep s, x <:+: y := by
  intro s
  induction s with
  | nil =>
    intro x hx hinf
    have hnil : x = [] := by simpa using hinf
    subst hnil
    exact ⟨[], by simp [splitOnChar], List.infix_refl []⟩
  | cons c rest ih =>
    intro x hx hinf
    obtain ⟨h, t, hsp⟩ := splitOnChar_cons_parts sep rest
    rcases infixConsElim hinf with hpre | hinf'
    · obtain ⟨h0, t0, hsp0, hpre0⟩ := splitOnChar_pre_head sep (c :: rest) x hx hpre
      refine ⟨h0, ?_, infixOfPre hpre0⟩
      rw [hsp0]
      exact List.mem_cons_self _ _
    · obtain ⟨y, hy, hxy⟩ := ih x hx hinf'
      rw [hsp] at hy
      by_cases hc : c = sep
      · refine ⟨y, ?_, hxy⟩
        rw [splitOnChar_cons, hsp]
        dsimp only
        rw [if_pos hc]
        exact List.mem_cons_of_mem _ hy
      · rcases List.mem_cons.mp hy with rfl | hy'
        · refine ⟨c :: y, ?_, infixConsOf c hxy⟩
          rw [splitOnChar_cons, hsp]
          dsimp only
          rw [if_neg hc]
          exact List.mem_cons_self _ _
        · refine ⟨y, ?_, hxy⟩
          rw [splitOnChar_cons, hsp]
          dsimp only
          rw [if_neg hc]
          exact List.mem_cons_of_mem _ hy'

/-- `dropWhile` keeps an infix whose first character is not accepted. -/
theorem dropWhileKeep (c0 : Char) (x' : Str) (hc0 : isWS c0 = false) :
    ∀ y, (c0 :: x') <:+: y → (c0 :: x') <:+: y.dropWhile isWS := by
  intro y
  induction y with
  | nil =>
    intro h
    simp only [List.dropWhile_nil]
    exact h
  | cons d y' ih =>
    intro h
    by_cases hd : isWS d
    · rw [List.dropWhile_cons, if_pos hd]
      rcases infixConsElim h with hpre | hinf
      · obtain ⟨hcd, _⟩ := List.cons_prefix_cons.mp hpre
        rw [← hcd, hc0] at hd
        exact absurd hd (by simp)
      · exact ih hinf
    · rw [List.dropWhile_cons, if_neg hd]
      exact h

/-- Trimming keeps any nonempty infix whose first and last characters are
not whitespace. -/
theorem trimStr_keeps (x y : Str) (hne : x ≠ [])
    (hh : isWS (x.headD 'A') = false) (hl : isWS (x.reverse.headD 'A') = false)
    (h : x <:+: y) : x <:+: trimStr y := by
  obtain ⟨c0, x', rfl⟩ := List.exists_cons_of_ne_nil hne
  have hh' : isWS c0 = false := by simpa using hh
  have step1 : (c0 :: x') <:+: y.dropWhile isWS := dropWhileKeep c0 x' hh' y h
  have step1r : (c0 :: x').reverse <:+: (y.dropWhile isWS).reverse :=
    List.reverse_infix.mpr step1
  have hrne : (c0 :: x').reverse ≠ [] := by simp
  obtain ⟨cL, r, hxr⟩ := List.exists_cons_of_ne_nil hrne
  have hcL : isWS cL = false := by
    rw [hxr] at hl
    simpa using hl
  rw [hxr] at step1r
  have step2 : (cL :: r) <:+: ((y.dropWhile isWS).reverse).dropWhile isWS :=
    dropWhileKeep cL r hcL _ step1r
  rw [← hxr] at step2
  apply List.reverse_infix.mp
  unfold trimStr
  rw [List.reverse_reverse]
  exact step2

/-- The trimmed line occurs contiguously in the original line. -/
theorem trimStr_occ (y : Str) : trimStr y <:+: y := by
  have h2 : ((y.dropWhile isWS).reverse).dropWhile isWS <:+ (y.dropWhile isWS).reverse :=
    List.dropWhile_suffix isWS
  have h3 : trimStr y <+: y.dropWhile isWS := by
    apply List.reverse_suffix.mp
    unfold trimStr
    rw [List.reverse_reverse]
    exact h2
  have h1 : y.dropWhile isWS <:+ y := List.dropWhile_suffix isWS
  exact (infixOfPre h3).trans (infixOfSuf h1)

/-- A nonempty newline-free infix of the join lies within one part. -/
theorem joinSep_nl_part :
    ∀ (l : List Str) (x : Str), x ≠ [] → '\n' ∉ x →
      x <:+: joinSep (str "\n") l → ∃ y ∈ l, x <:+: y := by
  intro l
  induction l with
  | nil =>
    intro x hne _ h
    exact absurd (by simpa [joinSep] using h) hne
  | cons y l ih =>
    intro x hne hnl h
    cases l with
    | nil => exact ⟨y, List.mem_cons_self y [], by simpa [joinSep] using h⟩
    | cons z t =>
      have h' : x <:+: y ++ ('\n' :: joinSep (str "\n") (z :: t)) := by
        have e : joinSep (str "\n") (y :: z :: t)
            = y ++ ('\n' :: joinSep (str "\n") (z :: t)) := by
          show y ++ str "\n" ++ joinSep (str "\n") (z :: t) = _
          rw [List.append_assoc]
          rfl
        rw [e] at h
        exact h
      rcases infixAppendSplit y ('\n' :: joinSep (str "\n") (z :: t)) x h' with
        h1 | h1 | ⟨x1, x2, hx, hne1, hne2, hsuf, hpf⟩
      · exact ⟨y, List.mem_cons_self y _, h1⟩
      · rcases infixConsElim h1 with hpre | hinf
        · obtain ⟨c0, x', rfl⟩ := List.exists_cons_of_ne_nil hne
          obtain ⟨hc0, _⟩ := List.cons_prefix_cons.mp hpre
          rw [hc0] at hne hnl ⊢
          exact absurd (List.mem_cons_self '\n' x') hnl
        · obtain ⟨w, hw, hxw⟩ := ih x hne hnl hinf
          exact ⟨w, List.mem_cons_of_mem y hw, hxw⟩
      · obtain ⟨c2, x2', rfl⟩ := List.exists_cons_of_ne_nil hne2
        obtain ⟨hc2, _⟩ := List.cons_prefix_cons.mp hpf
        have hmemx : c2 ∈ x := by
          rw [hx]
          exact List.mem_append.mpr (Or.inr (List.mem_cons_self c2 x2'))
        rw [hc2] at hmemx
        exact absurd hmemx hnl

/-- Normalization keeps a nonempty newline-free infix whose first and last
characters are not whitespace. -/
theorem normalizeLines_keeps (x s : Str) (hne : x ≠ []) (hnl : '\n' ∉ x)
    (hh : isWS (x.headD 'A') = false) (hl : isWS (x.reverse.headD 'A') = false)
    (h : x <:+: s) : x <:+: normalizeLines s := by
  obtain ⟨y, hy, hxy⟩ := splitOnChar_occ_in_part '\n' s x hnl h
  have h2 : x <:+: trimStr y := trimStr_keeps x y hne hh hl hxy
  have hj := joinSep_infix (str "\n") ((splitOnChar '\n' s).map trimStr) (trimStr y)
    (List.mem_map_of_mem trimStr hy)
  exact h2.trans hj

/-- Normalization cannot create an occurrence of a newline-free pattern. -/
theorem normalizeLines_reflects (pat s : Str) (hne : pat ≠ []) (hnl : '\n' ∉ pat)
    (h : pat <:+: normalizeLines s) : pat <:+: s := by
  obtain ⟨ty, hty, hpty⟩ := joinSep_nl_part ((splitOnChar '\n' s).map trimStr) pat hne hnl h
  obtain ⟨y, hy, rfl⟩ := List.mem_map.mp hty
  exact ((hpty.trans (trimStr_occ y)).trans (splitOnChar_part_occ '\n' s y hy))

/-- C3 (counterexample): the claim "generateLicenseContent never throws for
every metadata value, including metadata objects with missing fields" fails
at the metadata produced by merging the defaults with an empty custom
object (the function's own default argument): `licenseTemplate` is absent,
and reading `.replace` off it throws a TypeError. -/
theorem license_missing_template_throws :
    generateLicenseContent (str "a.txt") (mergeMetadata emptyCustom) ⟨2024, 3, 5⟩
      = Except.error (str "TypeError: cannot read replace of undefined") := rfl

/-- C3 (amended): whenever the metadata carries a license template (any
string), license generation succeeds: the date switch is total, the
authors list falls back to `N/A`, and institution/website/contact fall
back to the profile defaults, so no step can throw. -/
theorem license_generation_total (fn : Str) (m : Metadata) (now : JSDate)
    (tpl : Str) (h : m.licenseTemplate = some tpl) :
    exceptIsOk (generateLicenseContent fn m now) = true := by
  rw [generateLicenseContent_eq fn m now tpl h]
  rfl

/-- C3 (witness): concrete instance of `license_generation_total`. -/
theorem license_generation_total_witness :
    exceptIsOk (generateLicenseContent (str "a.txt") (mergeMetadata plainCustom)
      ⟨2024, 3, 5⟩) = true :=
  license_generation_total (str "a.txt") (mergeMetadata plainCustom)
    ⟨2024, 3, 5⟩ (str "T") rfl

/-- C9: `generateLicenseContent` is deterministic — the output depends only
on the filename, the metadata and the clock value captured by `new Date()`;
two calls with identical inputs and an identical clock value produce
byte-identical output. -/
theorem license_deterministic (fn : Str) (m : Metadata) (d1 d2 : JSDate)
    (h : d1 = d2) :
    generateLicenseContent fn m d1 = generateLicenseContent fn m d2 := by
  rw [h]

/-- C9 (witness): concrete instance of `license_deterministic`. -/
theorem license_deterministic_witness :
    generateLicenseContent (str "a.txt") (mergeMetadata plainCustom) ⟨2024, 3, 5⟩
      = generateLicenseContent (str "a.txt") (mergeMetadata plainCustom) ⟨2024, 3, 5⟩ :=
  license_deterministic (str "a.txt") (mergeMetadata plainCustom)
    ⟨2024, 3, 5⟩ ⟨2024, 3, 5⟩ rfl

/-- C10: whenever the audio container parses, `attachAudioMetadata` returns
a blob wrapping the original file bytes with the file's own MIME type: the
tag mutations are applied to the discarded in-memory parse result only. -/
theorem audio_blob_identity (env : Env) (file : FileInput) (metadata : Metadata)
    (parsed : AudioParseResult)
    (h : env.parseBuffer file.bytes file.type = Except.ok parsed) :
    attachAudioMetadata env file metadata
      = Except.ok { bytes := file.bytes, type := file.type } := by
  unfold attachAudioMetadata
  rw [h]

/-- C10 (witness): concrete instance of `audio_blob_identity`. -/
theorem audio_blob_identity_witness :
    attachAudioMetadata oldTagEnv trackFile (mergeMetadata emptyCustom)
      = Except.ok { bytes := [1, 2, 3], type := str "audio/mpeg" } :=
  audio_blob_identity oldTagEnv trackFile (mergeMetadata emptyCustom)
    { common :=
        { title := some (str "Old Title")
          artist := some (str "Old Artist")
          album := some (str "Old Album") } }
    rfl

/-- C2 (code bug): for a file whose container parses with an existing title
`Old Title`, `attachAudioMetadata` returns the original bytes unchanged, so
parsing the returned bytes again still reads `Old Title` — not the
`Default Title` the spec says must read back.  The mutated tag object is
discarded instead of being serialized into the output. -/
theorem audio_tags_not_written :
    attachAudioMetadata oldTagEnv trackFile (mergeMetadata emptyCustom)
        = Except.ok { bytes := trackFile.bytes, type := trackFile.type }
      ∧ oldTagEnv.parseBuffer trackFile.bytes trackFile.type
        = Except.ok
            { common :=
                { title := some (str "Old Title")
                  artist := some (str "Old Artist")
                  album := some (str "Old Album") } }
      ∧ str "Old Title" ≠ str "Default Title" :=
  ⟨rfl, rfl, by decide⟩

/-- C8: every successful `downloadFile` run produces an archive with exactly
the two entries `name ↦ processed blob` and `name + ".license.txt" ↦
license text`, and suggests `name + ".zip"` as the download name. -/
theorem zip_two_entries (env : Env) (item : FileItem) (custom : CustomMetadata)
    (now : JSDate) (artifacts : DownloadArtifacts) (lic : Str)
    (h1 : attachMetadataToDownload env item.file custom now = Except.ok artifacts)
    (h2 : generateLicenseContent item.name (rawMetadata custom) now = Except.ok lic) :
    downloadFile env item custom now
      = Except.ok
          { entries :=
              [ (item.name, ZipEntry.fileEntry artifacts.processedFile)
              , (item.name ++ str ".license.txt", ZipEntry.textEntry lic) ]
            downloadName := item.name ++ str ".zip" } := by
  unfold downloadFile
  rw [h1, h2]

/-- C8 (witness): concrete instance of `zip_two_entries` on a pass-through
file. -/
theorem zip_two_entries_witness :
    downloadFile failEnv heicItem plainCustom ⟨2024, 3, 5⟩
      = Except.ok
          { entries :=
              [ (str "photo.heic", ZipEntry.fileEntry (fileBlob heicFile))
              , (str "photo.heic" ++ str ".license.txt", ZipEntry.textEntry (str "T")) ]
            downloadName := str "photo.heic" ++ str ".zip" } :=
  zip_two_entries failEnv heicItem plainCustom ⟨2024, 3, 5⟩
    { processedFile := fileBlob heicFile, licenseText := str "T" } (str "T")
    rfl rfl

/-- C5 (counterexample): a file named `pdf` has no extension at all, yet
`split(".").pop()` yields the whole name, which IS a table key, so the PDF
embedder runs and the processed bytes differ from the input — refuting
"for every filename with no extension the pipeline uses no embedder and
processedBytes are byte-identical". -/
theorem no_extension_routed_counterexample :
    ('.' ∉ str "pdf")
      ∧ attachMetadataToDownload pdfEnv pdfNameFile plainCustom ⟨2024, 3, 5⟩
          = Except.ok
              { processedFile := { bytes := [9, 9, 9], type := str "application/pdf" }
                licenseText := str "T" }
      ∧ pdfNameFile.bytes = [1, 2, 3]
      ∧ ([9, 9, 9] : List Nat) ≠ [1, 2, 3] :=
  ⟨by decide, rfl, rfl, by decide⟩

/-- C5 (amended): `resolve` takes the substring after the last `.` — or the
entire name when no `.` occurs — lower-cases it, and looks it up in the
static table; for every filename whose extracted key is unknown, the
pipeline uses no embedder and passes the file through: the processed blob
is byte-identical (same bytes, same type) to the input, and the license is
still generated, with no error raised (provided the metadata carries a
license template). -/
theorem unknown_extension_passthrough :
    (∀ (base ext : Str), '.' ∉ ext →
        extOf (base ++ '.' :: ext) = ext.map Char.toLower)
      ∧ (∀ (env : Env) (file : FileInput) (custom : CustomMetadata) (now : JSDate)
          (tpl : Str),
          lookupType (extOf file.name) = none →
          custom.licenseTemplate = some tpl →
          attachMetadataToDownload env file custom now
            = Except.ok
                { processedFile := fileBlob file
                  licenseText :=
                    getOk (generateLicenseContent file.name (mergeMetadata custom) now) }) := by
  constructor
  · intro base ext hext
    unfold extOf
    rw [splitOnChar_append '.' base ext, splitOnChar_sep_free '.' ext hext,
      lastSeg_concat]
  · intro env file custom now tpl hlook htpl
    have hmt : (mergeMetadata custom).licenseTemplate = some tpl := htpl
    obtain ⟨out, hout⟩ :
        ∃ out, generateLicenseContent file.name (mergeMetadata custom) now
          = Except.ok out :=
      ⟨_, generateLicenseContent_eq file.name (mergeMetadata custom) now tpl hmt⟩
    unfold attachMetadataToDownload
    dsimp only
    rw [hlook, hout]
    rfl

/-- C5 (witness): concrete instance of `unknown_extension_passthrough` at
the spec's own example `photo.heic`. -/
theorem unknown_extension_passthrough_witness :
    extOf (str "photo.heic") = str "heic"
      ∧ attachMetadataToDownload failEnv heicFile plainCustom ⟨2024, 3, 5⟩
          = Except.ok
              { processedFile := fileBlob heicFile
                licenseText :=
                  getOk (generateLicenseContent (str "photo.heic")
                    (mergeMetadata plainCustom) ⟨2024, 3, 5⟩) } :=
  ⟨(unknown_extension_passthrough.1 (str "photo") (str "heic") (by decide)).trans
      (by decide),
    unknown_extension_passthrough.2 failEnv heicFile plainCustom ⟨2024, 3, 5⟩
      (str "T") (by decide) rfl⟩

/-- C6 (counterexample): under `d-m-yyyy`, the date 2024-03-05 renders as
`05-03-2024` — the `en-GB` numeric rendering zero-pads day and month — not
as the claimed `5-3-2024`, which does not even occur as a substring. -/
theorem date_format_counterexample :
    formatDate ⟨2024, 3, 5⟩ (some (str "d-m-yyyy")) = str "05-03-2024"
      ∧ str "05-03-2024" ≠ str "5-3-2024"
      ∧ ¬ (str "5-3-2024" <:+: str "05-03-2024") := by
  refine ⟨by decide, by decide, by decide⟩

/-- C6 (amended): for the fixed date 2024-03-05, `yyyy-m-d` renders
`2024-03-05`; `d-m-yyyy` renders `05-03-2024` (day-month-year order with
hyphens, zero-padded); `m-yyyy-d` renders `05/2024-03` (the regex reorders
only the month/year pair of the `en-GB` string, leaving the day and its
slash untouched); and the rendered license under `d-m-yyyy` contains the
`05-03-2024` substring. -/
theorem date_format_outputs :
    formatDate ⟨2024, 3, 5⟩ (some (str "yyyy-m-d")) = str "2024-03-05"
      ∧ formatDate ⟨2024, 3, 5⟩ (some (str "m-yyyy-d")) = str "05/2024-03"
      ∧ formatDate ⟨2024, 3, 5⟩ (some (str "d-m-yyyy")) = str "05-03-2024"
      ∧ exceptIsOk (generateLicenseContent (str "f.txt") (mergeMetadata dmyCustom)
          ⟨2024, 3, 5⟩) = true
      ∧ str "05-03-2024" <:+:
          getOk (generateLicenseContent (str "f.txt") (mergeMetadata dmyCustom)
            ⟨2024, 3, 5⟩) := by
  refine ⟨by decide, by decide, by decide, by decide, by decide⟩

/-- C4 (counterexample): a filename whose text contains the literal
`{year}` placeholder is NOT left verbatim: the later `year` pass
substitutes it, so the rendered output is `a2024b` and contains no
`{year}`. -/
theorem substitution_chains_counterexample :
    generateLicenseContent (str "a{year}b") (mergeMetadata chainCustom) ⟨2024, 3, 5⟩
        = Except.ok (str "a2024b")
      ∧ ¬ (str "{year}" <:+: str "a2024b")
      ∧ ¬ (str "a{year}b" <:+: str "a2024b") := by
  refine ⟨rfl, by decide, by decide⟩

/-- C4 (amended): substitution is a fixed sequence of global single-token
passes in source order (filename, downloadDate, year, institution, website,
contact, authorsList); each pass is single-pass over the current string,
but a substituted value containing the literal text of a LATER token is
substituted again by that later pass, while unknown placeholders (here
`{foo}`) are left verbatim: for every year `y`, a template `{filename}`
with filename `a{year}b{foo}` renders to `a` + decimal(y) + `b{foo}`. -/
theorem substitution_sequential (y mo dd : Nat) :
    generateLicenseContent (str "a{year}b{foo}") (mergeMetadata chainCustom)
        ⟨y, mo, dd⟩
      = Except.ok (str "a" ++ (natToChars y ++ str "b{foo}")) := by
  rw [generateLicenseContent_eq (str "a{year}b{foo}") (mergeMetadata chainCustom)
    ⟨y, mo, dd⟩ (str "{filename}") rfl]
  have h0 : htmlToText (str "{filename}") = str "{filename}" := by decide
  rw [h0]
  show Except.ok (normalizeLines (substTokens
    (tokenVals (str "a{year}b{foo}") (mergeMetadata chainCustom) ⟨y, mo, dd⟩)
    tokenOrder (str "{filename}"))) = _
  simp only [substTokens, tokenOrder]
  have h1 : replaceAll (str "{filename}") (tokenPat Token.filename)
      (tokenVals (str "a{year}b{foo}") (mergeMetadata chainCustom) ⟨y, mo, dd⟩
        Token.filename) = str "a{year}b{foo}" := rfl
  rw [h1]
  have h2 : replaceAll (str "a{year}b{foo}") (tokenPat Token.downloadDate)
      (tokenVals (str "a{year}b{foo}") (mergeMetadata chainCustom) ⟨y, mo, dd⟩
        Token.downloadDate) = str "a{year}b{foo}" :=
    replaceAll_no_match _ _ _ (by decide)
  rw [h2]
  have hy : tokenVals (str "a{year}b{foo}") (mergeMetadata chainCustom) ⟨y, mo, dd⟩
      Token.year = natToChars y := rfl
  have hsplit : str "a{year}b{foo}" = str "a" ++ (tokenPat Token.year ++ str "b{foo}") :=
    rfl
  have h3 : replaceAll (str "a{year}b{foo}") (tokenPat Token.year) (natToChars y)
      = str "a" ++ (natToChars y ++ str "b{foo}") := by
    rw [hsplit, replaceAll_skip (tokenPat Token.year) (natToChars y) (str "a") _
      (by decide),
      replaceAll_cons_match (tokenPat Token.year) (natToChars y) (str "b{foo}")
        (tokenPat_ne_nil Token.year),
      replaceAll_no_match (str "b{foo}") (tokenPat Token.year) (natToChars y)
        (by decide)]
  rw [hy, h3]
  have hmid : ∀ (t : Token) (rep : Str), t ≠ Token.year →
      replaceAll (str "a" ++ (natToChars y ++ str "b{foo}")) (tokenPat t) rep
        = str "a" ++ (natToChars y ++ str "b{foo}") := by
    intro t rep ht
    rw [replaceAll_skip (tokenPat t) rep (str "a") _ (by
      have : ∀ u : Token, ∀ xd ∈ (str "a").tails, xd ≠ [] →
          ¬ tokenPat u <+: xd ∧ ¬ xd <+: tokenPat u := by decide
      exact this t),
      skip_of_noLB (tokenPat t) rep (natToChars y) _
        (noLB_of_digits _ (natToChars_mem y)) (tokenPat_head t),
      replaceAll_no_match (str "b{foo}") (tokenPat t) rep (by
        revert t
        decide)]
  rw [hmid Token.institution _ (by decide), hmid Token.website _ (by decide),
    hmid Token.contact _ (by decide), hmid Token.authorsList _ (by decide)]
  have hnorm : normalizeLines (str "a" ++ (natToChars y ++ str "b{foo}"))
      = str "a" ++ (natToChars y ++ str "b{foo}") := by
    apply normalizeLines_id
    intro c hc
    rcases List.mem_append.mp hc with h | h
    · exact (by decide : ∀ d ∈ str "a", isWS d = false) c h
    · rcases List.mem_append.mp h with h' | h'
      · exact (by decide : ∀ d ∈ str "0123456789", isWS d = false) c
          (natToChars_mem y c h')
      · exact (by decide : ∀ d ∈ str "b{foo}", isWS d = false) c h'
  rw [hnorm]

/-- C1 (amended): whenever the resolved descriptor routes the file to an
embedder and that embedder throws, license generation still succeeds, and
`attachMetadataToDownload` succeeds with a processed blob wrapping the
original file bytes (and type) unchanged and with that license as its
text; for the default template, with brace-free and dollar-free filename
and field values, the license contains no residual placeholder token.
The value-safety conditions are necessary: a value containing brace text
can re-create placeholder text (see `embed_failure_residual_counterexample`
and the C4 theorems), and a value containing `$` triggers JavaScript
replacement escapes that `replaceAll` does not model. -/
theorem embed_failure_fallback (env : Env) (file : FileInput)
    (custom : CustomMetadata) (now : JSDate) (td : TypeDescriptor)
    (hk : HandlerKind) (err : Str)
    (hlook : lookupType (extOf file.name) = some td)
    (hhk : td.handler = some hk)
    (hfail : runHandler env hk file (mergeMetadata custom) = Except.error err)
    (htpl : custom.licenseTemplate = some defaultLicenseTemplate)
    (hfnS : valSafe file.name)
    (hauthS : ∀ a ∈ (mergeMetadata custom).authors, valSafe a)
    (hinstS : valSafe (mergeMetadata custom).institution)
    (hwebS : valSafe (mergeMetadata custom).website)
    (hconS : valSafe (mergeMetadata custom).contact) :
    exceptIsOk (generateLicenseContent file.name (mergeMetadata custom) now) = true
      ∧ ∀ lic,
          generateLicenseContent file.name (mergeMetadata custom) now
            = Except.ok lic →
          attachMetadataToDownload env file custom now
              = Except.ok { processedFile := fileBlob file, licenseText := lic }
            ∧ noResidual lic := by
  have hfn : noLB file.name := valSafe_noLB _ hfnS
  have hauth : ∀ a ∈ (mergeMetadata custom).authors, noLB a :=
    fun a ha => valSafe_noLB a (hauthS a ha)
  have hinst : noLB (mergeMetadata custom).institution := valSafe_noLB _ hinstS
  have hweb : noLB (mergeMetadata custom).website := valSafe_noLB _ hwebS
  have hcon : noLB (mergeMetadata custom).contact := valSafe_noLB _ hconS
  have hmt : (mergeMetadata custom).licenseTemplate = some defaultLicenseTemplate :=
    htpl
  have hgen : generateLicenseContent file.name (mergeMetadata custom) now
      = Except.ok (normalizeLines
          (substTokens (tokenVals file.name (mergeMetadata custom) now)
            tokenOrder defaultLicenseTemplate)) := by
    rw [generateLicenseContent_eq file.name (mergeMetadata custom) now
      defaultLicenseTemplate hmt, defaultTemplate_htmlToText]
  have hnores : noResidual (normalizeLines
      (substTokens (tokenVals file.name (mergeMetadata custom) now)
        tokenOrder defaultLicenseTemplate)) := by
    apply noResidual_of_noLB
    apply normalizeLines_noLB
    exact defaultTemplate_subst_noLB _
      (tokenVals_noLB file.name (mergeMetadata custom) now hfn hauth hinst hweb hcon)
  refine ⟨license_generation_total file.name (mergeMetadata custom) now
    defaultLicenseTemplate hmt, ?_⟩
  intro lic hlic
  have hinj := Except.ok.inj (hgen.symm.trans hlic)
  constructor
  · unfold attachMetadataToDownload
    dsimp only
    rw [hlook]
    dsimp only
    rw [hhk]
    dsimp only
    rw [hfail, hlic]
  · exact hinj ▸ hnores

/-- C1 (witness): a parse failure on `track.mp3` with authors and
institution set over the default template. -/
theorem embed_failure_fallback_witness :
    attachMetadataToDownload failEnv trackFile fullCustom ⟨2024, 3, 5⟩
        = Except.ok
            { processedFile := fileBlob trackFile
              licenseText :=
                getOk (generateLicenseContent (str "track.mp3")
                  (mergeMetadata fullCustom) ⟨2024, 3, 5⟩) }
      ∧ noResidual
          (getOk (generateLicenseContent (str "track.mp3")
            (mergeMetadata fullCustom) ⟨2024, 3, 5⟩)) :=
  (embed_failure_fallback failEnv trackFile fullCustom ⟨2024, 3, 5⟩
    { mimeType := str "audio/mpeg", handler := some HandlerKind.audio }
    HandlerKind.audio (str "parse failure")
    (by decide) rfl rfl rfl (by decide) (by decide) (by decide) (by decide)
    (by decide)).2
    (getOk (generateLicenseContent (str "track.mp3")
      (mergeMetadata fullCustom) ⟨2024, 3, 5⟩))
    (by rfl)

/-- C1 (counterexample): the claim "whenever a file routed to an embedder
fails to embed, the pipeline succeeds, returns the original bytes, and the
license carries no residual `{token}` for defaulted fields" fails without a
value-safety restriction: `track.mp3` is routed to the audio embedder, the
embedder throws, the pipeline does fall back and succeed on the original
bytes, but a contact value consisting of the literal text `{institution}`
is spliced in by the contact pass after the institution pass has already
run, so the delivered license retains a residual `{institution}`
placeholder (institution is a defaulted field). -/
theorem embed_failure_residual_counterexample :
    lookupType (extOf trackFile.name)
        = some { mimeType := str "audio/mpeg", handler := some HandlerKind.audio }
      ∧ runHandler failEnv HandlerKind.audio trackFile (mergeMetadata residualCustom)
          = Except.error (str "parse failure")
      ∧ attachMetadataToDownload failEnv trackFile residualCustom ⟨2024, 3, 5⟩
          = Except.ok
              { processedFile := fileBlob trackFile
                licenseText := getOk (generateLicenseContent trackFile.name
                  (mergeMetadata residualCustom) ⟨2024, 3, 5⟩) }
      ∧ tokenPat Token.institution <:+:
          getOk (generateLicenseContent trackFile.name
            (mergeMetadata residualCustom) ⟨2024, 3, 5⟩) :=
  ⟨by decide, rfl, by rfl,
    ⟨str "License Agreement\n\nFile: track.mp3\nDownload Date: 3/5/2024\n\n© 2024 Your Institution Name\n\nAuthors:\nN/A\n\nLicense:\n\nThis file is licensed under the Your Institution Name Copyright License. Downloading the file constitutes agreement to the following terms:\n\n* Personal Use Only: You may download and use this file for personal, non-commercial purposes.\n* No Redistribution or Modification: You may not share, distribute, or modify this file without explicit written permission from Your Institution Name.\n* Copyright Protection: This file is protected by copyright law. Unauthorized use or reproduction is prohibited.\n\nFor More Information:\n\n* Website: Your Website URL\n* Contact: ", str "\n", by rfl⟩⟩

/-- C7: with empty authors, the rendered license never contains the
`{authorsList}` placeholder (its last-pass replacement `N/A` shares no
character with it, so no occurrence survives or is re-created), and if the
plain-text template mentioned the placeholder at all, the license contains
the literal `N/A`; with non-empty authors whose comma-joined list is a
trimmed single-line dollar-free string (the spec's input boundary for
author names), the license contains that comma-joined list in place of the
placeholder. -/
theorem authors_na_substitution :
    (∀ (m : Metadata) (fn : Str) (now : JSDate) (tpl : Str),
        m.authors = [] →
        m.licenseTemplate = some tpl →
        ∀ lic, generateLicenseContent fn m now = Except.ok lic →
          ¬ tokenPat Token.authorsList <:+: lic
            ∧ (tokenPat Token.authorsList <:+: htmlToText tpl →
                str "N/A" <:+: lic))
      ∧ (∀ (m : Metadata) (fn : Str) (now : JSDate) (tpl : Str),
          m.authors ≠ [] →
          m.licenseTemplate = some tpl →
          tokenPat Token.authorsList <:+: htmlToText tpl →
          lineSafe (joinSep (str ", ") m.authors) →
          ∀ lic, generateLicenseContent fn m now = Except.ok lic →
            joinSep (str ", ") m.authors <:+: lic) := by
  constructor
  · intro m fn now tpl hempty htpl lic hlic
    have hgen := generateLicenseContent_eq fn m now tpl htpl
    have hinj := Except.ok.inj (hgen.symm.trans hlic)
    have hAL : tokenVals fn m now Token.authorsList = str "N/A" := by
      show authorsListVal m = str "N/A"
      unfold authorsListVal
      rw [hempty]
      rfl
    constructor
    · intro hocc
      rw [← hinj] at hocc
      have hocc2 : tokenPat Token.authorsList <:+:
          substTokens (tokenVals fn m now) tokenOrder (htmlToText tpl) :=
        normalizeLines_reflects _ _ (tokenPat_ne_nil _) (by decide) hocc
      rw [substTokens_tokenOrder, hAL] at hocc2
      exact replaceAll_no_recreate (tokenPat Token.authorsList) (str "N/A")
        (tokenPat_ne_nil _) (by decide) (by decide) _ _ (Nat.le_refl _) hocc2
    · intro hocc
      have h1 : tokenPat Token.authorsList <:+:
          substTokens (tokenVals fn m now) frontTokens (htmlToText tpl) :=
        substTokens_preserve (tokenVals fn m now) frontTokens (htmlToText tpl)
          authorsList_not_front hocc
      have h2 := replaceAll_hit (tokenPat Token.authorsList) (str "N/A")
        (substTokens (tokenVals fn m now) frontTokens (htmlToText tpl))
        (tokenPat_ne_nil _) h1
      rw [← hinj]
      apply normalizeLines_keeps _ _ (by decide) (by decide) (by decide) (by decide)
      rw [substTokens_tokenOrder, hAL]
      exact h2
  · intro m fn now tpl hne htpl hocc hsafe lic hlic
    have hgen := generateLicenseContent_eq fn m now tpl htpl
    have hinj := Except.ok.inj (hgen.symm.trans hlic)
    have hAL : tokenVals fn m now Token.authorsList
        = joinSep (str ", ") m.authors := by
      show authorsListVal m = _
      unfold authorsListVal
      rw [if_pos (List.length_pos.mpr hne)]
    obtain ⟨hne2, hnl, _, hh, hl⟩ := hsafe
    have h1 : tokenPat Token.authorsList <:+:
        substTokens (tokenVals fn m now) frontTokens (htmlToText tpl) :=
      substTokens_preserve (tokenVals fn m now) frontTokens (htmlToText tpl)
        authorsList_not_front hocc
    have h2 := replaceAll_hit (tokenPat Token.authorsList)
      (joinSep (str ", ") m.authors)
      (substTokens (tokenVals fn m now) frontTokens (htmlToText tpl))
      (tokenPat_ne_nil _) h1
    rw [← hinj]
    apply normalizeLines_keeps _ _ hne2 hnl hh hl
    rw [substTokens_tokenOrder, hAL]
    exact h2

/-- C7 (witness): concrete instances at empty and non-empty authors over
the default template. -/
theorem authors_na_substitution_witness :
    (¬ tokenPat Token.authorsList <:+:
          getOk (generateLicenseContent (str "photo.heic")
            (mergeMetadata noAuthorsCustom) ⟨2024, 3, 5⟩)
        ∧ str "N/A" <:+:
            getOk (generateLicenseContent (str "photo.heic")
              (mergeMetadata noAuthorsCustom) ⟨2024, 3, 5⟩))
      ∧ joinSep (str ", ") (mergeMetadata fullCustom).authors <:+:
          getOk (generateLicenseContent (str "track.mp3")
            (mergeMetadata fullCustom) ⟨2024, 3, 5⟩) := by
  constructor
  · have h := authors_na_substitution.1 (mergeMetadata noAuthorsCustom)
      (str "photo.heic") ⟨2024, 3, 5⟩ defaultLicenseTemplate rfl rfl
      (getOk (generateLicenseContent (str "photo.heic")
        (mergeMetadata noAuthorsCustom) ⟨2024, 3, 5⟩)) (by rfl)
    exact ⟨h.1, h.2 (by decide)⟩
  · exact authors_na_substitution.2 (mergeMetadata fullCustom) (str "track.mp3")
      ⟨2024, 3, 5⟩ defaultLicenseTemplate (by decide) rfl (by decide) (by decide)
      (getOk (generateLicenseContent (str "track.mp3")
        (mergeMetadata fullCustom) ⟨2024, 3, 5⟩)) (by rfl)
